import Mathlib

/-!
Verification development for the chord-striker harmonic-structure generator.

The Python sources are embedded shallowly: pure functions become Lean
functions, in-place mutation becomes explicit state passing, Python
exceptions become an error type threaded through the Except monad, and
Python machine integers are modelled as Int (they are unbounded in Python
as well).  Real numbers appearing in edge probabilities are modelled as
rationals.  The pychord library (an external dependency of the repository)
is modelled structurally: a chord is a root note name, a quality string and
an optional slash bass, and the library's note/value tables are reproduced
below.
-/

namespace ChordStriker

/-- Python exceptions raised by the embedded code.  The warningFired
constructor models the source's raise Warning statement, which raises like
any exception.  The fuelExhausted constructor is a modelling artifact: it is
returned when a loop is cut off by fuel, which never happens for the fuel
values supplied by the definitions below. -/
inductive PyErr where
  | typeError (msg : String)
  | valueError (msg : String)
  | indexError
  | keyError
  | nameError
  | warningFired (msg : String)
  | networkxError (msg : String)
  | fuelExhausted
deriving DecidableEq, Repr

/-- Outcomes of embedded computations are compared up to decidable equality
so that concrete runs can be checked by evaluation. -/
instance {ε α : Type} [DecidableEq ε] [DecidableEq α] : DecidableEq (Except ε α) :=
  fun x y =>
    match x, y with
    | .ok a, .ok b =>
      if h : a = b then isTrue (by rw [h]) else isFalse (by intro he; cases he; exact h rfl)
    | .error a, .error b =>
      if h : a = b then isTrue (by rw [h]) else isFalse (by intro he; cases he; exact h rfl)
    | .ok _, .error _ => isFalse (by intro he; cases he)
    | .error _, .ok _ => isFalse (by intro he; cases he)

/-- Python list read with an Int index: negative indices wrap once by the
length, anything still out of range raises IndexError. -/
def pyGet {α : Type} (l : List α) (i : Int) : Except PyErr α :=
  let j : Int := if i < 0 then i + l.length else i
  if 0 ≤ j then
    match l.get? j.toNat with
    | some x => .ok x
    | none => .error .indexError
  else .error .indexError

/-- Python list element assignment with an Int index (same index rules as
pyGet); returns the updated list. -/
def pySet {α : Type} (l : List α) (i : Int) (a : α) : Except PyErr (List α) :=
  let j : Int := if i < 0 then i + l.length else i
  if 0 ≤ j ∧ j < l.length then .ok (l.set j.toNat a) else .error .indexError

/-- Python slice l[a:b] with Int bounds: negative bounds wrap by the length,
then both are clamped into [0, len]; an empty range yields []. -/
def pySlice {α : Type} (l : List α) (a b : Int) : List α :=
  let n : Int := l.length
  let a2 := if a < 0 then max (a + n) 0 else min a n
  let b2 := if b < 0 then max (b + n) 0 else min b n
  (l.take b2.toNat).drop a2.toNat

/-- Model of random.choices(pop, weights)[0]: raises when the population is
empty or no weight is positive, and otherwise returns some element carrying
positive weight.  The draw itself is made deterministic through the oracle
index k, which selects which support element the generator lands on; every
support element is obtainable for a suitable k. -/
def pickSupport {α : Type} (pop : List α) (ws : List ℚ) (k : Nat) : Except PyErr α :=
  match pop with
  | [] => .error .indexError
  | _ :: _ =>
    match ((pop.zip ws).filter (fun p => 0 < p.2)).map (·.1) with
    | [] => .error (.valueError "Total of weights must be greater than zero")
    | x :: xs => .ok ((x :: xs).getD (k % (xs.length + 1)) x)

/-- Model of random.choice(pop): raises on an empty population, otherwise
returns the element selected by the oracle index k. -/
def pickChoice {α : Type} (pop : List α) (k : Nat) : Except PyErr α :=
  match pop with
  | [] => .error .indexError
  | x :: xs => .ok ((x :: xs).getD (k % (xs.length + 1)) x)

/-- Note-name/semitone table of the pychord library (NOTE_VAL_DICT). -/
def NOTE_VAL_TABLE : List (String × Nat) :=
  [("Ab", 8), ("A", 9), ("A#", 10), ("Bb", 10), ("B", 11), ("Cb", 11),
   ("C", 0), ("C#", 1), ("Db", 1), ("D", 2), ("D#", 3), ("Eb", 3),
   ("E", 4), ("F", 5), ("F#", 6), ("Gb", 6), ("G", 7), ("G#", 8)]

def noteToVal (n : String) : Option Nat :=
  (NOTE_VAL_TABLE.find? (fun p => p.1 = n)).map (·.2)

/-- Pychord note_to_val: raises KeyError on an unknown note name. -/
def noteVal (n : String) : Except PyErr Nat :=
  match noteToVal n with
  | some v => .ok v
  | none => .error .keyError

/-- Pychord SHARPED_SCALE, indexed by semitone value. -/
def SHARPED_SCALE : List String :=
  ["C", "C#", "D", "D#", "E", "F"] ++ ["F#", "G", "G#", "A", "A#", "B"]

/-- Pychord FLATTED_SCALE, indexed by semitone value. -/
def FLATTED_SCALE : List String :=
  ["C", "Db", "D", "Eb", "E", "F", "Gb", "G", "Ab", "A", "Bb", "B"]

/-- Which keys pychord's SCALE_VAL_DICT maps to the sharped scale (the
remaining keys map to the flatted scale).  The spec states the convention:
C-major-family keys use sharps, flat-family keys use flats. -/
def sharpKeys : List String :=
  ["A", "A#", "B", "C", "C#", "D", "D#", "E", "F#", "G", "G#"]

def scaleOf (k : String) : List String :=
  if k ∈ sharpKeys then SHARPED_SCALE else FLATTED_SCALE

/-- Pychord val_to_note(v, scale): spell a semitone value in the sharp/flat
convention of the given key. -/
def valToNote (v : Nat) (key : String) : String :=
  (scaleOf key).getD (v % 12) ""

/-- Structural model of a pychord Chord object: a root note name, a quality
string (empty for a major triad) and an optional slash bass.  The library
stores a chord as its name string plus these parsed parts; the name string
is always recoverable as root ++ quality (++ "/" ++ bass), so the parts are
the faithful state. -/
structure PyChord where
  root : String
  quality : String
  «on» : Option String
deriving DecidableEq, Repr

/-- Pychord Chord equality: root (and slash bass) compare by semitone value,
qualities by their name. -/
def pychordEq (a b : PyChord) : Except PyErr Bool := do
  let va ← noteVal a.root
  let vb ← noteVal b.root
  if va ≠ vb then return false
  else if a.quality ≠ b.quality then return false
  else
    match a.«on», b.«on» with
    | some x, some y => do
        let vx ← noteVal x
        let vy ← noteVal y
        return decide (vx = vy)
    | some _, none => return false
    | none, some _ => return false
    | none, none => return true

/-- Python == on chord-or-None values.  Pychord's Chord raises when compared
with a non-Chord (the quirk worked around by chord_nc_equality in
section.py), and None == None is True, so a mixed comparison raises while
same-shape comparisons return a Bool. -/
def pyEqOC : Option PyChord → Option PyChord → Except PyErr Bool
  | some a, some b => pychordEq a b
  | none, none => .ok true
  | _, _ => .error (.typeError "cannot compare Chord object with NoneType object")

/-- KEYS as set up by load_constants. -/
def KEYS : List String :=
  ["C", "C#", "D", "Eb", "E", "F", "F#", "G", "Ab", "A", "Bb", "B"]

/-- helper_fns.fix_accidental: re-spell a note name in the sharp/flat
convention of the key; looking the note up in the other scale raises when it
is absent there too (list.index failure). -/
def fix_accidental (note : String) (key : String) : Except PyErr String :=
  if key ∉ KEYS then .error (.valueError "Key supplied is not valid")
  else
    let correct := scaleOf key
    if note ∈ correct then .ok note
    else
      let wrong := if key ∈ sharpKeys then FLATTED_SCALE else SHARPED_SCALE
      match wrong.indexOf? note with
      | some i => .ok (correct.getD i "")
      | none => .error (.valueError "substring not found")

/-- helper_fns.accidental_fixer.  The source rebuilds the chord by replacing
the root (and slash bass) substring inside the chord's name string and
re-parsing; on the structural chord model that is exactly replacing the root
and bass fields. -/
def accidental_fixer (c : PyChord) (key : String) : Except PyErr PyChord := do
  let r ← fix_accidental c.root key
  match c.«on» with
  | some o => do
      let o2 ← fix_accidental o key
      .ok ⟨r, c.quality, some o2⟩
  | none => .ok ⟨r, c.quality, none⟩

/-- section.true_transpose on a chord-or-None value.  Both keys are checked
before the None shortcut, exactly as in the source.  Pychord's
Chord.transpose shifts root and bass by the given factor and spells the
result in the default C scale; accidental_fixer then re-spells for the
target key.

Caveat kept explicit: pychord's transpose mutates the Chord object in
place, and one assign_chord call stores the same object reference in every
unit of the span it fills, so in the Python runtime transposing a section
shifts such a shared object once per unit it occupies.  This value-level
model gives every unit its own chord value instead.  No theorem below
depends on the chord values produced by a transpose, only on the key field,
the progression length, and on which list object a section holds. -/
def true_transpose (c : Option PyChord) (current_key new_key : String) :
    Except PyErr (Option PyChord) :=
  if current_key ∉ KEYS ∨ new_key ∉ KEYS then
    .error (.valueError "One of the keys supplied is invalid")
  else
    let tf : Int := ((KEYS.indexOf new_key : Int) - (KEYS.indexOf current_key : Int)) % 12
    match c with
    | none => .ok none
    | some ch => do
        let rv ← noteVal ch.root
        let on2 ← match ch.«on» with
          | some o => do
              let ov ← noteVal o
              pure (some (valToNote ((ov + tf.toNat) % 12) "C"))
          | none => pure none
        let moved : PyChord := ⟨valToNote ((rv + tf.toNat) % 12) "C", ch.quality, on2⟩
        let fixed ← accidental_fixer moved new_key
        .ok (some fixed)

/-- The Section record: scalar attributes plus the chord timeline.  The
private beats_per_measure attribute and the derived total_units are stored
exactly as the constructor computes them. -/
structure Section where
  name : Option String
  variation : Option Int
  time_signature : String
  key : String
  num_measures : Int
  units_per_beat : Int
  final_section : Bool
  beats_per_measure : Int
  total_units : Int
  chord_progression : List (Option PyChord)
deriving DecidableEq, Repr

/-- Numerator of the time signature, int(ts.split("/")[0]).  The constructor
only ever reaches this after validating the signature against the allowed
list, which currently contains just "4/4". -/
def tsNumerator (ts : String) : Int := if ts = "4/4" then 4 else 0

/-- Section.__init__.  Python's isinstance checks on name, variation,
num_measures, units_per_beat and final_section are vacuous here because the
embedding already fixes those argument types; the value checks on the time
signature and the key are kept.  [None] * total yields the empty list when
total is not positive, hence the toNat. -/
def Section.init (name : Option String) (variation : Option Int)
    (time_signature : String) (key : String) (num_measures : Int)
    (units_per_beat : Int) (final_section : Bool) : Except PyErr Section :=
  if time_signature ∉ ["4/4"] then
    .error (.valueError "time_signature must be one of the allowed time signatures")
  else if key ∉ KEYS then .error (.valueError "key must be supplied")
  else
    let bpm := tsNumerator time_signature
    let total := num_measures * bpm * units_per_beat
    .ok ⟨name, variation, time_signature, key, num_measures, units_per_beat,
      final_section, bpm, total, List.replicate total.toNat none⟩

/-- The fill-forward loop of Section.assign_chord: starting just after the
written index, keep overwriting while the next slot still holds the value
the write replaced (Python == on chord-or-None, which can raise), stopping
at the first differing slot or at total_units.  The loop guard is the
source's current_index + 1 < total_units; the structural fuel argument only
bounds the recursion depth, and with the fuel (total - i).toNat passed by
assignFill the guard always fails before the fuel runs out, so the fuel
branch is unreachable there. -/
def fillLoop (fuel : Nat) (prog : List (Option PyChord)) (existing : Option PyChord)
    (c : PyChord) (i total : Int) : Except PyErr (List (Option PyChord)) :=
  match fuel with
  | 0 => if i + 1 < total then .error .fuelExhausted else .ok prog
  | fuel + 1 =>
    if i + 1 < total then do
      let v ← pyGet prog (i + 1)
      let b ← pyEqOC v existing
      if b then do
        let p2 ← pySet prog (i + 1) (some c)
        fillLoop fuel p2 existing c (i + 1) total
      else .ok prog
    else .ok prog

/-- The write-then-fill tail of Section.assign_chord at a resolved absolute
index. -/
def assignFill (prog : List (Option PyChord)) (c : PyChord) (a total : Int) :
    Except PyErr (List (Option PyChord)) := do
  let existing ← pyGet prog a
  let p1 ← pySet prog a (some c)
  fillLoop (total - a).toNat p1 existing c a total

/-- Section.assign_chord on the timeline, given the section's scalar fields.
Mirrors the source's two addressing modes, including its exact bound checks:
in particular the absolute-unit condition is the source's
not (absolute_unit >= 0 or absolute_unit < total_units), with the or as
written. -/
def assignChordCore (num_measures bpm upb total : Int)
    (prog : List (Option PyChord)) (chord : PyChord)
    (measure beat unit absolute_unit : Option Int) :
    Except PyErr (List (Option PyChord)) :=
  match measure with
  | some m =>
    if ¬ (1 ≤ m ∧ m ≤ num_measures) then
      .error (.valueError "measure must be between 1 and the number of measures in the section")
    else
      match (match beat with
             | none => .ok 1
             | some b =>
               if ¬ (1 ≤ b ∧ b ≤ bpm) then
                 Except.error (PyErr.valueError "beat must be a between 1 and the number of beats per measure")
               else .ok b : Except PyErr Int) with
      | .error e => .error e
      | .ok b =>
        match (match unit with
               | none => .ok 1
               | some u =>
                 if ¬ (1 ≤ u ∧ u ≤ upb) then
                   Except.error (PyErr.valueError "unit must be between 1 and the number of units per beat")
                 else .ok u : Except PyErr Int) with
        | .error e => .error e
        | .ok u =>
          assignFill prog chord ((m - 1) * bpm * upb + (b - 1) * upb + (u - 1)) total
  | none =>
    match absolute_unit with
    | none => .error (.valueError "You must provide some indication of where you want the chord added")
    | some a =>
      if ¬ (0 ≤ a ∨ a < total) then
        .error (.valueError "absolute_unit must be between 0 and the total number of units in the measure exclusive")
      else if beat ≠ none ∨ unit ≠ none then
        .error (.warningFired "You have provided a beat or unit but not a measure")
      else assignFill prog chord a total

/-- Section.assign_chord as a state transformer on the section value. -/
def Section.assign_chord (s : Section) (chord : PyChord)
    (measure beat unit absolute_unit : Option Int) : Except PyErr Section := do
  let p ← assignChordCore s.num_measures s.beats_per_measure s.units_per_beat
    s.total_units s.chord_progression chord measure beat unit absolute_unit
  .ok { s with chord_progression := p }

/-- Section.get_chord. -/
def Section.get_chord (s : Section) (absolute_unit : Int) :
    Except PyErr (Option PyChord) :=
  pyGet s.chord_progression absolute_unit

/-- Section.truncate, with the source's validation (note that it admits
start_measure = 0) and its inclusive 1-indexed arithmetic. -/
def Section.truncate (s : Section) (start_measure end_measure : Int) :
    Except PyErr Section :=
  if start_measure < 0 ∨ end_measure < 0 ∨ start_measure > s.num_measures ∨
      end_measure > s.num_measures ∨ start_measure ≥ end_measure then
    .error (.valueError "start and end measures must be legitimate measure numbers and start measure must preceed end measure")
  else
    let nm := (end_measure - start_measure) + 1
    let total := nm * s.beats_per_measure * s.units_per_beat
    let su := (start_measure - 1) * s.units_per_beat * s.beats_per_measure
    let eu := end_measure * s.units_per_beat * s.beats_per_measure
    .ok { s with
            num_measures := nm
            total_units := total
            chord_progression := pySlice s.chord_progression su eu }

/-- Section.halve.  Python integer division and modulo floor toward minus
infinity; for the positive divisor 2 that is Lean's Euclidean Int division
and modulo.  The argument expressions reproduce the source's operator
precedence, half * num_measures // 2 being (half * num_measures) // 2. -/
def Section.halve (s : Section) (half : Int) : Except PyErr Section :=
  if s.num_measures % 2 ≠ 0 then
    .error (.valueError "number of measures must be divisible by 2")
  else
    s.truncate (1 + half * s.num_measures / 2)
      (s.num_measures / 2 + half * s.num_measures / 2)

/-- The list comprehension inside Section.transpose. -/
def transposeProg (prog : List (Option PyChord)) (current_key new_key : String) :
    Except PyErr (List (Option PyChord)) :=
  prog.mapM (fun c => true_transpose c current_key new_key)

/-- Section.transpose: rebind the progression to the freshly built list and
update the key. -/
def Section.transpose (s : Section) (new_key : String) : Except PyErr Section := do
  let p ← transposeProg s.chord_progression s.key new_key
  .ok { s with chord_progression := p, key := new_key }

/-- How Python str.format renders a section name in concat: None prints as
the string None. -/
def fmtName : Option String → String
  | none => "None"
  | some s => s

/-- The first copy loop of Section.concat: for every unit of the first
section, read its chord (the loop variable retains the last read value
afterwards) and, when it is a chord, assign it at the same unit of the new
section.  The chordVar accumulator is the Python loop variable; its outer
none means the variable is still unbound. -/
def concatLoop1 (a : Section) (cs : Section) (chordVar : Option (Option PyChord))
    (u fuel : Nat) : Except PyErr (Section × Option (Option PyChord)) :=
  match fuel with
  | 0 => .ok (cs, chordVar)
  | fuel + 1 => do
    let ch ← a.get_chord u
    let cs2 ← match ch with
      | some c => cs.assign_chord c none none none (some u)
      | none => pure cs
    concatLoop1 a cs2 (some ch) (u + 1) fuel

/-- The second copy loop of Section.concat: for every unit of the other
section, assign its chord at the shifted unit; when that unit is unset, the
leftover loop variable from the first loop is assigned instead if it holds a
chord (referencing it while unbound is a NameError). -/
def concatLoop2 (b : Section) (aTotal : Int) (chordVar : Option (Option PyChord))
    (cs : Section) (u fuel : Nat) : Except PyErr Section :=
  match fuel with
  | 0 => .ok cs
  | fuel + 1 => do
    let nch ← b.get_chord u
    let cs2 ← match nch with
      | some c => cs.assign_chord c none none none (some (aTotal + u))
      | none =>
        match chordVar with
        | none => .error .nameError
        | some (some c) => cs.assign_chord c none none none (some (aTotal + u))
        | some none => pure cs
    concatLoop2 b aTotal chordVar cs2 (u + 1) fuel

/-- Section.concat: name and variation bookkeeping, the three compatibility
checks, construction of the combined section, then the two copy loops.  The
Python for loops iterate exactly total_units times, which the fuel arguments
reproduce. -/
def Section.concat (s another_section : Section) : Except PyErr Section := do
  let concat_name : Option String :=
    if s.name = another_section.name then s.name
    else some (fmtName s.name ++ "_" ++ fmtName another_section.name)
  let concat_variation : Int :=
    if s.name = another_section.name then
      (([s.variation, another_section.variation].filterMap id ++ [0]).foldl max 0) + 1
    else
      match s.variation with
      | none => 1
      | some v => v + 1
  if s.time_signature ≠ another_section.time_signature then
    .error (.valueError "time signatures must agree")
  else if s.units_per_beat ≠ another_section.units_per_beat then
    .error (.valueError "units per beat must agree")
  else if s.key ≠ another_section.key then
    .error (.valueError "keys must agree")
  else do
    let cs0 ← Section.init concat_name (some concat_variation) s.time_signature
      s.key (s.num_measures + another_section.num_measures) s.units_per_beat
      (s.final_section || another_section.final_section)
    let (cs1, chordVar) ← concatLoop1 s cs0 none 0 s.total_units.toNat
    concatLoop2 another_section s.total_units chordVar cs1 0
      another_section.total_units.toNat

/-- The per-index body of chorder.parse_chord_selections: bound check on the
change index (raised as TypeError in the source), then assignment. -/
def parseGo (s : Section) : List (Int × PyChord) → Except PyErr Section
  | [] => .ok s
  | (i, c) :: rest => do
    if ¬ (0 ≤ i ∧ i < s.total_units) then
      Except.error (PyErr.typeError "all change indices must be between 0 and total_units")
    else do
      let s2 ← s.assign_chord c none none none (some i)
      parseGo s2 rest

/-- chorder.parse_chord_selections on a section value. -/
def parse_chord_selections (s : Section) (change_indices : List Int)
    (chords : List PyChord) : Except PyErr Section :=
  if change_indices.length ≠ chords.length then
    .error (.valueError "number of change indices and chords to change to must agree")
  else parseGo s (change_indices.zip chords)

/-- Python str.upper on the ASCII strings in play. -/
def pyUpper (s : String) : String := ⟨s.data.map Char.toUpper⟩

/-- Python str.lower on the ASCII strings in play. -/
def pyLower (s : String) : String := ⟨s.data.map Char.toLower⟩

/-- load_constants.ALLOWED_SYMBOLS: the Roman degrees, their lowercase
forms, and the flat-prefixed forms of all of those. -/
def ROMAN : List String := ["I", "II", "III", "IV", "V", "VI", "VII"]

def ALLOWED_SYMBOLS : List String :=
  let a := ROMAN ++ ROMAN.map (fun r => pyLower r)
  a ++ a.map (fun r => "b" ++ r)

/-- Python str.islower: at least one cased character and no uppercase cased
character (all characters in play are ASCII letters). -/
def pyIslower (s : String) : Bool :=
  s.data.any (fun ch => ch.isLower) && s.data.all (fun ch => ¬ ch.isUpper)

/-- Python substring membership needle in hay. -/
def strIn (needle hay : String) : Bool :=
  (List.range (hay.length + 1)).any (fun i => needle.data.isPrefixOf (hay.data.drop i))

/-- The multi-number collapse in chordParserFn: split the extension on
whitespace, keep the purely numeric words, and if any exist replace the
extension by the largest number. -/
def collapseExt (e : String) : String :=
  if e = "" then e
  else
    let nums := ((e.splitOn " ").filter
      (fun w => w ≠ "" ∧ w.data.all (fun ch => ch.isDigit))).filterMap (fun w => w.toNat?)
    match nums with
    | [] => e
    | n :: rest => toString (rest.foldl max n)

/-- Major-scale degree offsets in semitones (pychord RELATIVE_KEY_DICT for
maj, first seven degrees). -/
def MAJOR_OFFSETS : List Nat := [0, 2, 4, 5, 7, 9, 11]

/-- Pychord Chord.from_note_index for the key ++ "maj" scales used by
chordParserFn: resolve the given 1-indexed degree of the major scale of the
key and attach the quality. -/
def from_note_index (note : Nat) (quality : String) (scale : String) :
    Except PyErr PyChord :=
  let key := scale.dropRight 3
  if ¬ (1 ≤ note ∧ note ≤ 8) then .error (.valueError "invalid note index")
  else
    match noteToVal key, MAJOR_OFFSETS.get? (note - 1) with
    | some kv, some off => .ok ⟨valToNote ((kv + off) % 12) key, quality, none⟩
    | _, _ => .error .keyError

/-- Chord component intervals by quality, covering the qualities reachable
through chordParserFn (models the pychord quality table; an unknown quality
raises as the library would). -/
def QUAL_COMPONENTS : List (String × List Nat) :=
  [("", [0, 4, 7]), ("m", [0, 3, 7]), ("7", [0, 4, 7, 10]),
   ("maj7", [0, 4, 7, 11]), ("sus4", [0, 5, 7]), ("sus2", [0, 2, 7]),
   ("9", [0, 4, 7, 10, 14]), ("m7", [0, 3, 7, 10]), ("m7b5", [0, 3, 6, 10]),
   ("6", [0, 4, 7, 9]), ("m6", [0, 3, 7, 9]), ("dim", [0, 3, 6]),
   ("aug", [0, 4, 8]), ("add9", [0, 4, 7, 14]), ("m9", [0, 3, 7, 10, 14]),
   ("11", [0, 4, 7, 10, 14, 17]), ("13", [0, 4, 7, 10, 14, 17, 21])]

/-- Pychord Chord.components: the note names of the chord, default sharped
spelling. -/
def components (c : PyChord) : Except PyErr (List String) := do
  let rv ← noteVal c.root
  match QUAL_COMPONENTS.find? (fun p => p.1 = c.quality) with
  | some p => .ok (p.2.map (fun iv => valToNote ((rv + iv) % 12) "C"))
  | none => .error .keyError

/-- chorder.invert: choose a new bass uniformly among the non-root component
notes and attach it as the slash bass (the source appends slash and note to
the chord name string and re-parses). -/
def invert (py_chord : PyChord) (pick : Nat) : Except PyErr PyChord := do
  let notes ← components py_chord
  let rest := notes.drop 1
  match rest with
  | [] => .error .indexError
  | x :: xs =>
    .ok ⟨py_chord.root, py_chord.quality, some ((x :: xs).getD (pick % (xs.length + 1)) x)⟩

/-- One batch of pseudo-random outcomes consumed by chordParserFn: the two
Bernoulli outcomes (with the configured probabilities forced to 0 an outcome
is necessarily false), the extension drawn from the external per-degree
extension table when the first outcome is true, and the inversion bass
choice index. -/
structure ParserDraw where
  extBit : Bool
  invBit : Bool
  extChoice : String
  invPick : Nat
deriving DecidableEq, Repr

/-- chorder.chordParserFn with its random draws supplied by a ParserDraw.
The source's first degree branch tests chord.upper() against the Roman
numerals, so it captures the lowercase degrees as well and the dedicated
lowercase branch is unreachable; the flat branch resolves the un-flattened
degree and then transposes down one semitone in place. -/
def chordParserFn (d : ParserDraw) (chord : String) (key : String) :
    Except PyErr PyChord := do
  if chord ∉ ALLOWED_SYMBOLS then .error (.valueError "chord is not valid")
  else do
    let ext0 := if d.extBit then collapseExt d.extChoice else ""
    let ext1 :=
      if pyIslower chord ∧ chord ≠ "vii" then
        (if ext0 = "" then "m"
         else if ¬ (strIn "m" ext0 ∨ strIn "sus" ext0) then
           "m" ++ ext0
         else ext0)
      else if chord = "vii" ∧ ext0 = "" then "m7b5"
      else ext0
    let py0 ←
      if pyUpper chord ∈ ROMAN then
        from_note_index (ROMAN.indexOf (pyUpper chord) + 1) ext1 (key ++ "maj")
      else if "b".data.isPrefixOf chord.data then do
        let base := pyUpper (chord.drop 1)
        let c0 ← from_note_index (ROMAN.indexOf base + 1) ext1 (key ++ "maj")
        let rv ← noteVal c0.root
        pure { c0 with root := valToNote ((rv + 11) % 12) "C" }
      else
        from_note_index (ROMAN.indexOf (pyUpper chord) + 1) ext1 (key ++ "maj")
    let py1 ← if d.invBit then invert py0 d.invPick else pure py0
    accidental_fixer py1 key

/-!
The ChordProgressionSelector is modelled with explicit Python object
identity, because its behaviour depends on aliasing: copy.copy produces a
new Section object sharing the same chord_progression list object, and the
cached variation results are object references.  The state therefore holds a
heap of list objects and a heap of section objects; a section object stores
its scalar attributes plus a reference into the list heap.  Rebinding the
chord_progression attribute (transpose) allocates a fresh list object, while
assign_chord mutates the referenced list in place.
-/

/-- A Section object: the scalar attributes plus a reference into the list
heap for its chord_progression attribute. -/
structure SecObj where
  name : Option String
  variation : Option Int
  time_signature : String
  key : String
  num_measures : Int
  units_per_beat : Int
  final_section : Bool
  beats_per_measure : Int
  total_units : Int
  listRef : Nat
deriving DecidableEq, Repr

/-- One var_dict entry: the result is a reference into the section heap. -/
structure VarEntry where
  resultRef : Nat
  allow_double : Bool
  variation_type : Option String
deriving DecidableEq, Repr

/-- The ChordProgressionSelector state: the two heaps, the reference to the
base section object passed to the constructor, and the private attributes. -/
structure SelSt where
  lists : List (List (Option PyChord))
  secs : List SecObj
  baseRef : Nat
  change_indices : List Int
  chords_nashville : List String
  base_chords : List PyChord
  var_dict : List (Int × VarEntry)
deriving DecidableEq, Repr

/-- Python dict lookup on the variation dictionary (keys are unique because
entries are only ever inserted for a missing key). -/
def dictGet (d : List (Int × VarEntry)) (k : Int) : Option VarEntry :=
  (d.find? (fun p => p.1 = k)).map (·.2)

/-- Python dict assignment d[k] = v. -/
def dictSet (d : List (Int × VarEntry)) (k : Int) (v : VarEntry) :
    List (Int × VarEntry) :=
  if (d.find? (fun p => p.1 = k)).isSome then
    d.map (fun p => if p.1 = k then (k, v) else p)
  else d ++ [(k, v)]

/-- Dereference a list object.  References produced by the definitions below
are always live; the error branch only documents that discipline. -/
def getList (st : SelSt) (r : Nat) : Except PyErr (List (Option PyChord)) :=
  match st.lists.get? r with
  | some l => .ok l
  | none => .error .indexError

/-- In-place update of a list object. -/
def setList (st : SelSt) (r : Nat) (l : List (Option PyChord)) : SelSt :=
  { st with lists := st.lists.set r l }

/-- Allocate a fresh list object. -/
def allocList (st : SelSt) (l : List (Option PyChord)) : SelSt × Nat :=
  ({ st with lists := st.lists ++ [l] }, st.lists.length)

/-- Dereference a section object. -/
def getSec (st : SelSt) (r : Nat) : Except PyErr SecObj :=
  match st.secs.get? r with
  | some o => .ok o
  | none => .error .indexError

/-- In-place update of a section object. -/
def setSec (st : SelSt) (r : Nat) (o : SecObj) : SelSt :=
  { st with secs := st.secs.set r o }

/-- Allocate a fresh section object. -/
def allocSec (st : SelSt) (o : SecObj) : SelSt × Nat :=
  ({ st with secs := st.secs ++ [o] }, st.secs.length)

/-- View a section object as a section value (object attributes plus the
current contents of its chord_progression list). -/
def secView (st : SelSt) (r : Nat) : Except PyErr Section := do
  let o ← getSec st r
  let l ← getList st o.listRef
  .ok ⟨o.name, o.variation, o.time_signature, o.key, o.num_measures,
    o.units_per_beat, o.final_section, o.beats_per_measure, o.total_units, l⟩

/-- The section object corresponding to a section value whose list lives at
the given reference. -/
def secObjOf (s : Section) (r : Nat) : SecObj :=
  ⟨s.name, s.variation, s.time_signature, s.key, s.num_measures,
    s.units_per_beat, s.final_section, s.beats_per_measure, s.total_units, r⟩

/-- Section.assign_chord called on a section object: mutates the referenced
chord_progression list in place, so every object sharing that list sees the
change. -/
def assignChordH (st : SelSt) (r : Nat) (c : PyChord)
    (measure beat unit absolute_unit : Option Int) : Except PyErr SelSt := do
  let o ← getSec st r
  let l ← getList st o.listRef
  let l2 ← assignChordCore o.num_measures o.beats_per_measure o.units_per_beat
    o.total_units l c measure beat unit absolute_unit
  .ok (setList st o.listRef l2)

/-- The loop of parse_chord_selections on a section object. -/
def parseGoH (st : SelSt) (r : Nat) : List (Int × PyChord) → Except PyErr SelSt
  | [] => .ok st
  | (i, c) :: rest => do
    let o ← getSec st r
    if ¬ (0 ≤ i ∧ i < o.total_units) then
      Except.error (PyErr.typeError "all change indices must be between 0 and total_units")
    else do
      let st2 ← assignChordH st r c none none none (some i)
      parseGoH st2 r rest

/-- parse_chord_selections on a section object (returns its section
argument, i.e. the same reference, so only the state is threaded). -/
def parseChordSelectionsH (st : SelSt) (r : Nat) (change_indices : List Int)
    (chords : List PyChord) : Except PyErr SelSt :=
  if change_indices.length ≠ chords.length then
    .error (.valueError "number of change indices and chords to change to must agree")
  else parseGoH st r (change_indices.zip chords)

/-- Section.transpose called on a section object: the chord_progression
attribute is rebound to a freshly allocated list object and the key
attribute is mutated, both on the same section object, so every reference to
that object (in particular a var_dict entry) sees the new key. -/
def transposeH (st : SelSt) (r : Nat) (new_key : String) : Except PyErr SelSt := do
  let o ← getSec st r
  let l ← getList st o.listRef
  let l2 ← transposeProg l o.key new_key
  let (st2, nr) := allocList st l2
  .ok (setSec st2 r { o with key := new_key, listRef := nr })

/-- Section.concat called on a section object with itself (the only concat
reachable from get_variation): builds a fresh section object with a fresh
list. -/
def concatSelfH (st : SelSt) (r : Nat) : Except PyErr (SelSt × Nat) := do
  let v ← secView st r
  let cres ← v.concat v
  let (st2, lr) := allocList st cres.chord_progression
  let (st3, sr) := allocSec st2 (secObjOf cres lr)
  .ok (st3, sr)

/-- The external chord-transition configuration table.  Modelled from the
spec: the table itself is YAML configuration outside the core (spec sections
2 and 6); it is keyed by previous degree, with a distinguished no-previous
key (None, the loader's replacement for start), covers all 21 degree symbols
and maps each to non-negative next-degree weights.  Lookups take the
previous-degree key and the next degree. -/
def ChordChangeProbs : Type := Option String → String → ℚ

/-- The key list of the chord-transition table: the distinguished None key
followed by the 21 degree symbols. -/
def CHORD_CHANGE_KEYS : List (Option String) :=
  none :: ALLOWED_SYMBOLS.map some

/-- helper_fns.substitute with the weighted draw resolved through the oracle
index: filter the table keys against None and the neighbouring degrees, then
draw with the conditional weights (next present) or the simple transition
weights (next absent). -/
def substitute (P : ChordChangeProbs) (prev_chord current_chord next_chord : Option String)
    (pick : Nat) : Except PyErr String := do
  match next_chord with
  | none =>
    let poss := CHORD_CHANGE_KEYS.filter
      (fun c => c ∉ [none, current_chord, prev_chord])
    let ws := poss.map (fun c => P prev_chord (c.getD ""))
    let chosen ← pickSupport poss ws pick
    .ok (chosen.getD "")
  | some nx =>
    let poss := CHORD_CHANGE_KEYS.filter
      (fun c => c ∉ [none, current_chord, prev_chord, some nx])
    let ws := poss.map (fun c => P (some (c.getD "")) nx * P prev_chord (c.getD ""))
    let chosen ← pickSupport poss ws pick
    .ok (chosen.getD "")

/-- The sub-beat placement weight used by the add variation (and by the
initial change-location sampler): baseline 1, +100 on the first unit, +25 on
beat boundaries, +25 on two-beat boundaries, +5 on the off-beat midpoint of
a beat (the comparison against units_per_beat / 2 is Python true division,
hence the rational comparison). -/
def measureWeight (upb : Int) (i : Int) : ℚ :=
  1 + (if i = 0 then 100 else 0) + (if i % upb = 0 then 25 else 0) +
    (if i % (2 * upb) = 0 then 25 else 0) +
    (if ((i % upb : Int) : ℚ) = (upb : ℚ) / 2 then 5 else 0)

/-- Ascending insertion used to model Python list.sort on Int lists. -/
def insInt (x : Int) : List Int → List Int
  | [] => [x]
  | y :: ys => if x ≤ y then x :: y :: ys else y :: insInt x ys

def sortInt (l : List Int) : List Int := l.foldr insInt []

/-- The pseudo-random outcomes consumed by one uncached get_variation call:
the edit-type choice, the alter-index draw, the substitute draw, the new
slot draw for add, and the chordParserFn draws. -/
structure VarOracle where
  typePick : Nat
  alterPick : Nat
  subPick : Nat
  addPick : Nat
  draw : ParserDraw
deriving DecidableEq, Repr

/-- Element read from a plain Lean list representing an intermediate Python
list whose index is known non-negative; out of range raises IndexError as
Python indexing would. -/
def listAt {α : Type} (l : List α) (i : Nat) : Except PyErr α :=
  match l.get? i with
  | some x => .ok x
  | none => .error .indexError

/-- ChordProgressionSelector.get_variation.  The cached branch checks the
stored allow_double flag; the uncached branch draws an edit type, makes a
shallow copy of the base section object (sharing its chord_progression
list), computes the edited section, and caches the resulting object
reference with its metadata.  The common tail rereads the cached entry and,
when a key is requested, transposes that object in place before returning
it. -/
def get_variation (P : ChordChangeProbs) (st : SelSt) (var : Int)
    (allow_double : Bool) (key : Option String) (o : VarOracle) :
    Except PyErr (SelSt × Nat) := do
  let st1 ←
    match dictGet st.var_dict var with
    | some e =>
      if allow_double ≠ e.allow_double then
        Except.error (PyErr.valueError "allow double flag is not correct for this variation")
      else .ok st
    | none => do
      let options := ["add", "remove", "change"] ++ (if allow_double then ["double"] else [])
      let vt ← pickChoice options o.typePick
      let bo ← getSec st st.baseRef
      let (stA, r1) := allocSec st { bo with variation := some var }
      let n := st.change_indices.length
      let (stB, outRef) ←
        if vt = "double" then do
          let stD ← parseChordSelectionsH stA r1 st.change_indices st.base_chords
          concatSelfH stD r1
        else if vt = "remove" ∨ vt = "change" then
          if n = 1 then .ok (stA, r1)
          else
            let w0 := (List.replicate n (1 : ℚ)).set (n - 1) 3
            let alter_weights := w0.set 0 2
            if vt = "remove" then do
              let alter_index ← pickSupport (List.range' 1 (n - 1) 1)
                (alter_weights.drop 1) o.alterPick
              let new_indices ← ((List.range n).filter (fun i => i ≠ alter_index)).mapM
                (fun i => listAt st.change_indices i)
              let new_chords ← ((List.range n).filter (fun i => i ≠ alter_index)).mapM
                (fun i => listAt st.base_chords i)
              let stD ← parseChordSelectionsH stA r1 new_indices new_chords
              .ok (stD, r1)
            else do
              let alter_index ← pickSupport (List.range n) alter_weights o.alterPick
              let next_chord ←
                if alter_index = n - 1 then pure none
                else do
                  let s ← listAt st.chords_nashville (alter_index + 1)
                  pure (some s)
              let prev_chord ←
                if alter_index = 0 then pure none
                else do
                  let s ← listAt st.chords_nashville (alter_index - 1)
                  pure (some s)
              let cur ← listAt st.chords_nashville alter_index
              let new_sym ← substitute P prev_chord (some cur) next_chord o.subPick
              let bo1 ← getSec stA r1
              let new_chord ← chordParserFn o.draw new_sym bo1.key
              let new_chords := st.base_chords.set alter_index new_chord
              let stD ← parseChordSelectionsH stA r1 st.change_indices new_chords
              .ok (stD, r1)
        else if vt = "add" then do
          let bo1 ← getSec stA r1
          let available_indices := ((List.range bo1.total_units.toNat).map
            (fun i => (i : Int))).filter (fun i => i ∉ st.change_indices)
          let mws := available_indices.map (fun i => measureWeight bo1.units_per_beat i)
          let new_index ← pickSupport available_indices mws o.addPick
          let new_indices := sortInt (st.change_indices ++ [new_index])
          let alter_index := new_indices.indexOf new_index
          let prev_chord ← pyGet st.chords_nashville ((alter_index : Int) - 1)
          let next_chord ←
            if alter_index = n then pure none
            else do
              let s ← listAt st.chords_nashville alter_index
              pure (some s)
          let new_sym ← substitute P (some prev_chord) none next_chord o.subPick
          let new_chord ← chordParserFn o.draw new_sym bo1.key
          let new_chords := st.base_chords.take alter_index ++ [new_chord] ++
            st.base_chords.drop alter_index
          let stD ← parseChordSelectionsH stA r1 new_indices new_chords
          .ok (stD, r1)
        else
          Except.error PyErr.nameError
      .ok { stB with var_dict := dictSet stB.var_dict var ⟨outRef, allow_double, some vt⟩ }
  match dictGet st1.var_dict var with
  | none => .error .keyError
  | some e => do
    let st2 ←
      match key with
      | some k => transposeH st1 e.resultRef k
      | none => .ok st1
    .ok (st2, e.resultRef)

/-- ChordProgressionSelector.__init__, taking the sampled change locations
and Nashville degree sequence (the outputs of chord_progression_selector,
whose draws are external to the claims settled here) together with the
chordParserFn draws for each degree.  The provided section becomes the base
object of the heap, its chords are assigned through parse_chord_selections,
and the result (the very same object) is cached as variation 0. -/
def cps_init (sec : Section) (change_indices : List Int)
    (chords_nashville : List String) (draws : Nat → ParserDraw) :
    Except PyErr SelSt := do
  let base_chords ← chords_nashville.enum.mapM
    (fun p => chordParserFn (draws p.1) p.2 sec.key)
  let st0 : SelSt :=
    ⟨[sec.chord_progression], [secObjOf sec 0], 0, change_indices,
      chords_nashville, base_chords, []⟩
  let st1 ← parseChordSelectionsH st0 0 change_indices base_chords
  .ok { st1 with var_dict := [(0, ⟨0, false, none⟩)] }

/-!
ProbDAG (probabilistic_dag.py).  A networkx DiGraph is modelled as a node
list and an edge list carrying the probability attribute p of every edge (a
DiGraph stores node and edge attribute dictionaries; only p is ever read).
A DiGraph holds each node once and at most one edge per ordered pair, and
every edge endpoint is a node; this structural well-formedness stands in for
the isinstance DiGraph check.  Probabilities are modelled as rationals.
-/

structure PyDiGraph where
  nodes : List String
  edges : List (String × String × ℚ)
deriving DecidableEq, Repr

/-- DiGraph.successors with the edge probabilities attached, in edge
insertion order. -/
def successorsP (g : PyDiGraph) (n : String) : List (String × ℚ) :=
  (g.edges.filter (fun e => e.1 = n)).map (fun e => (e.2.1, e.2.2))

/-- Successor names only. -/
def succNames (g : PyDiGraph) (n : String) : List String :=
  (successorsP g n).map (·.1)

/-- Predecessor names. -/
def predNames (g : PyDiGraph) (n : String) : List String :=
  (g.edges.filter (fun e => e.2.1 = n)).map (·.1)

/-- Undirected neighbours, for weak connectivity. -/
def undirNeighbors (g : PyDiGraph) (n : String) : List String :=
  succNames g n ++ predNames g n

/-- One breadth step of a reachability closure. -/
def reachStep (adj : String → List String) (vis : List String) : List String :=
  (vis ++ vis.flatMap adj).dedup

/-- Iterated closure; iterating as many times as there are nodes reaches a
fixed point. -/
def reachIter (adj : String → List String) (vis : List String) : Nat → List String
  | 0 => vis
  | n + 1 => reachIter adj (reachStep adj vis) n

/-- The set of nodes reachable from n (n itself included). -/
def reachableFrom (g : PyDiGraph) (adj : String → List String) (n : String) :
    List String :=
  reachIter adj [n] g.nodes.length

/-- Kahn topological sort: repeatedly remove a node without incoming edges
from the remaining nodes (first such node in node order, matching a valid
networkx topological order); cycles leave nodes unremovable. -/
def kahn (g : PyDiGraph) (remaining : List String) (acc : List String) :
    Nat → Option (List String)
  | 0 => if remaining = [] then some acc.reverse else none
  | fuel + 1 =>
    match remaining.find? (fun n =>
      (g.edges.filter (fun e => e.2.1 = n ∧ e.1 ∈ remaining)) = []) with
    | none => if remaining = [] then some acc.reverse else none
    | some n => kahn g (remaining.erase n) (n :: acc) fuel

def topologicalSort (g : PyDiGraph) : Option (List String) :=
  kahn g g.nodes [] g.nodes.length

/-- Python round(x, 5) on an exact rational: scale by 10^5 and round half to
even. -/
def roundHalfEven5 (x : ℚ) : Int :=
  let f : ℚ := x * 100000
  let n : Int := ⌊f⌋
  let r : ℚ := f - n
  if r < 1 / 2 then n
  else if 1 / 2 < r then n + 1
  else if 2 ∣ n then n else n + 1

/-- A validated ProbDAG: the graph together with the source and sink found
at validation. -/
structure ProbDAGSt where
  graph : PyDiGraph
  source : String
  sink : String
deriving DecidableEq, Repr

/-- The per-node outgoing probability validation of ProbDAG.__init__: every
probability within [0, 1] (every modelled edge carries its p, so the
missing-attribute branch cannot fire) and the outgoing sum rounding to 1 at
five digits. -/
def checkNodeProbs (g : PyDiGraph) (n : String) : Except PyErr Unit :=
  let ps := (successorsP g n).map (·.2)
  if ps.any (fun p => p < 0 ∨ 1 < p) then
    .error (.valueError "probability must be a real number between 0 exclusive and 1 inclusive")
  else if roundHalfEven5 (ps.foldl (· + ·) 0) ≠ 100000 then
    .error (.valueError "outgoing probabilities must sum to 1")
  else .ok ()

def checkAllProbs (g : PyDiGraph) : List String → Except PyErr Unit
  | [] => .ok ()
  | n :: rest => do
    let _ ← checkNodeProbs g n
    checkAllProbs g rest

/-- ProbDAG.__init__: the DiGraph well-formedness (isinstance stand-in),
weak connectivity (networkx raises on the null graph), acyclicity, the
at-least-one-node check, the source test (every later node of the
topological order is a descendant of its first node), the sink test (every
earlier node is an ancestor of its last node), and the probability checks
for every non-sink node. -/
def ProbDAG.init (g : PyDiGraph) : Except PyErr ProbDAGSt := do
  if ¬ (g.nodes.Nodup ∧ (g.edges.map (fun e => (e.1, e.2.1))).Nodup ∧
      g.edges.all (fun e => e.1 ∈ g.nodes ∧ e.2.1 ∈ g.nodes)) then
    Except.error (PyErr.typeError "directed_graph must be a DiGraph object")
  else do
    match g.nodes with
    | [] => Except.error (PyErr.networkxError "Connectivity is undefined for the null graph")
    | n0 :: _ =>
      if ¬ g.nodes.all (fun n => n ∈ reachableFrom g (undirNeighbors g) n0) then
        Except.error (PyErr.valueError "directed_graph must be connected")
      else
        match topologicalSort g with
        | none => Except.error (PyErr.valueError "directed_graph must be acyclic")
        | some ts =>
          match ts with
          | [] => Except.error (PyErr.valueError "directed_graph must have at least one node")
          | t0 :: trest => do
            let possible_source := t0
            let possible_sink := (t0 :: trest).getLast (by simp)
            if ¬ trest.all (fun n => n ∈ reachableFrom g (succNames g) possible_source) then
              Except.error (PyErr.valueError "directed_graph must have a unique source node")
            else if ¬ (t0 :: trest).dropLast.all
                (fun n => n ∈ reachableFrom g (predNames g) possible_sink) then
              Except.error (PyErr.valueError "directed_graph must have a unique sink node")
            else do
              let _ ← checkAllProbs g (t0 :: trest).dropLast
              Except.ok ⟨g, possible_source, possible_sink⟩

/-- The sampling loop of get_random_path, with the successive weighted draws
resolved by the oracle.  The fuel cuts off a walk longer than the supplied
bound; the claims below only concern walks that return a path. -/
def walkLoop (d : ProbDAGSt) (oracle : Nat → Nat) :
    Nat → String → List String → Nat → Except PyErr (List String)
  | 0, _, _, _ => .error .fuelExhausted
  | fuel + 1, current, acc, step =>
    if current = d.sink then .ok acc.reverse
    else do
      let succ := successorsP d.graph current
      let nxt ← pickSupport (succ.map (·.1)) (succ.map (·.2)) (oracle step)
      walkLoop d oracle fuel nxt (nxt :: acc) (step + 1)

/-- ProbDAG.get_random_path: start at the source and repeatedly sample an
outgoing edge by weight until the sink is reached; the returned list
includes source and sink. -/
def get_random_path (d : ProbDAGSt) (oracle : Nat → Nat) (fuel : Nat) :
    Except PyErr (List String) :=
  walkLoop d oracle fuel d.source [d.source] 0

/-- Edge relation of the modelled graph. -/
def isEdge (g : PyDiGraph) (a b : String) : Prop :=
  ∃ p, (a, b, p) ∈ g.edges

/-- Reachability along directed edges. -/
inductive Reach (g : PyDiGraph) : String → String → Prop
  | refl (a : String) : Reach g a a
  | tail {a b c : String} : Reach g a b → isEdge g b c → Reach g a c

/-!
Concrete data shared by the evaluation theorems below.
-/

set_option maxRecDepth 8000

/-- The C major triad as chordParserFn realizes the degree I in key C. -/
def chordC : PyChord := ⟨"C", "", none⟩

/-- The F major triad (degree IV in key C). -/
def chordF : PyChord := ⟨"F", "", none⟩

/-- The G major triad (degree V in key C). -/
def chordG : PyChord := ⟨"G", "", none⟩

/-- Parser draws with both Bernoulli outcomes false: with
apply_extension_prob and invert_chord_prob configured to 0 these are the
only possible outcomes, since a Bernoulli draw with success weight 0 cannot
return True. -/
def drawPlain : ParserDraw := ⟨false, false, "", 0⟩

/-- A valid chord-transition configuration instance used to run the
selector concretely: every transition weight is 1 (the spec only requires
non-negative weights covering all degrees). -/
def sampleCCP : ChordChangeProbs := fun _ _ => 1

/-- A one-measure 4/4 section in C with two units per beat, exactly as the
constructor builds it. -/
def demoSec1 : Section :=
  ⟨none, none, "4/4", "C", 1, 2, false, 4, 8, List.replicate 8 none⟩

/-- A freshly constructed selector over demoSec1, whose sampled change
locations are 0 and 4 and whose sampled degrees are I and IV; its base
timeline is C C C C F F F F. -/
def selDemo : Except PyErr SelSt :=
  cps_init demoSec1 [0, 4] ["I", "IV"] (fun _ => drawPlain)

/-- The state selDemo produces: one list object holding the base timeline,
one section object (the base), and variation 0 cached as that object. -/
def selDemoSt : SelSt :=
  ⟨[[some chordC, some chordC, some chordC, some chordC,
     some chordF, some chordF, some chordF, some chordF]],
   [⟨none, none, "4/4", "C", 1, 2, false, 4, 8, 0⟩], 0, [0, 4], ["I", "IV"],
   [chordC, chordF], [(0, ⟨0, false, none⟩)]⟩

/-- The state after get_variation(0, key = D) on selDemoSt: a fresh list
object holds the transposed timeline and the base section object now has
key D and points at it; the cache still references that same (mutated)
object. -/
def selDemoStD : SelSt :=
  ⟨[[some chordC, some chordC, some chordC, some chordC,
     some chordF, some chordF, some chordF, some chordF],
    [some ⟨"D", "", none⟩, some ⟨"D", "", none⟩, some ⟨"D", "", none⟩,
     some ⟨"D", "", none⟩, some chordG, some chordG, some chordG, some chordG]],
   [⟨none, none, "4/4", "D", 1, 2, false, 4, 8, 1⟩], 0, [0, 4], ["I", "IV"],
   [chordC, chordF], [(0, ⟨0, false, none⟩)]⟩

/-- A one-measure 4/4 section in C with one unit per beat whose four units
all hold the C major triad (as four assignments would leave it). -/
def C6A : Section :=
  ⟨some "a", none, "4/4", "C", 1, 1, false, 4, 4, List.replicate 4 (some chordC)⟩

/-- A freshly constructed one-measure 4/4 section in C with one unit per
beat: all four units unset. -/
def C6B : Section :=
  ⟨some "b", none, "4/4", "C", 1, 1, false, 4, 4, List.replicate 4 none⟩

/-- A four-measure demonstration section (as built by the constructor). -/
def demoSec4 : Section :=
  ⟨none, none, "4/4", "C", 4, 2, false, 4, 32, List.replicate 32 none⟩

/-- A three-measure demonstration section. -/
def demoSec3 : Section :=
  ⟨none, none, "4/4", "C", 3, 2, false, 4, 24, List.replicate 24 none⟩

/-- A two-node demonstration graph: a single edge of probability 1 from a
to b. -/
def dagDemo : PyDiGraph := ⟨["a", "b"], [("a", "b", 1)]⟩

/-- Well-formedness of a chord value for pychord equality: its note names
are known to the note/value table. -/
def chordOK (c : PyChord) : Bool :=
  (noteToVal c.root).isSome &&
    (match c.«on» with
     | none => true
     | some o => (noteToVal o).isSome)

def okOpt : Option PyChord → Bool
  | none => true
  | some c => chordOK c

/-- The last set chord value of a timeline (none when every unit is unset):
the value the fill-forward semantics leaves on the tail of the region the
assignments have passed. -/
def lastSome : List (Option PyChord) → Option PyChord
  | [] => none
  | x :: xs =>
    match lastSome xs with
    | some c => some c
    | none => x

/-- The running fill value after the first u units of a timeline. -/
def runVal (L : List (Option PyChord)) (u : Nat) : Option PyChord :=
  lastSome (L.take u)

/-- In a timeline whose unset units form a prefix, an unset unit means no
chord occurs at or before it. -/
def nonePrefixForm (L : List (Option PyChord)) : Prop :=
  ∀ i j : Nat, i ≤ j → j < L.length → L.getD j none = none → L.getD i none = none

/-- Every stored chord of the timeline is well-formed. -/
def progOK (L : List (Option PyChord)) : Prop := ∀ x ∈ L, okOpt x = true

/-- C10: the Section constructor does not require num_measures to be
positive: for every integer num_measures and otherwise-valid arguments it
succeeds, total_units is the product num_measures * beats_per_measure *
units_per_beat, and the chord sequence has length max(total_units, 0). -/
theorem C10_theorem (name : Option String) (variation : Option Int)
    (key : String) (nm upb : Int) (fs : Bool) (hk : key ∈ KEYS) :
    ∃ s, Section.init name variation "4/4" key nm upb fs = .ok s ∧
      s.total_units = nm * 4 * upb ∧
      s.chord_progression.length = (nm * 4 * upb).toNat ∧
      ((s.chord_progression.length : Int) = max s.total_units 0) := by
  have hinit : Section.init name variation "4/4" key nm upb fs =
      .ok ⟨name, variation, "4/4", key, nm, upb, fs, 4,
        nm * 4 * upb, List.replicate (nm * 4 * upb).toNat none⟩ := by
    simp [Section.init, hk, tsNumerator]
  exact ⟨_, hinit, rfl, by simp, by simp [Int.toNat_eq_max]⟩

/-- Witness for C10 at num_measures = -3: construction succeeds, the stored
total is -24 and the chord sequence is empty. -/
theorem C10_witness :
    ("C" ∈ KEYS) ∧
    (∃ s, Section.init none none "4/4" "C" (-3) 2 false = .ok s ∧
      s.total_units = (-3) * 4 * 2 ∧
      s.chord_progression.length = ((-3 : Int) * 4 * 2).toNat ∧
      ((s.chord_progression.length : Int) = max s.total_units 0)) :=
  ⟨by decide, C10_theorem none none "C" (-3) 2 false (by decide)⟩

/-- C3: the claim states that absolute-unit addressing raises a validation
error for every absolute_unit outside the interval from 0 to total_units.
The code's check tests absolute_unit >= 0 OR absolute_unit < total_units,
which every integer satisfies when total_units is non-negative, so no
out-of-range absolute unit is ever rejected: on a fully C-filled default
section (total 64), assigning F at absolute_unit -1 succeeds (Python
indexing wraps to unit 63 and the fill-forward loop then rewrites the whole
timeline), and assigning at absolute_unit 64 escapes as an IndexError from
the list write rather than the advertised ValueError. -/
theorem C3_theorem :
    ((do
      let s ← Section.init none none "4/4" "C" 8 2 false
      let s1 ← s.assign_chord chordC none none none (some 0)
      let s2 ← s1.assign_chord chordF none none none (some (-1))
      pure (s2.chord_progression.getD 0 none, s2.chord_progression.getD 63 none)) =
      Except.ok (some chordF, some chordF)) ∧
    ((do
      let s ← Section.init none none "4/4" "C" 8 2 false
      let s1 ← s.assign_chord chordC none none none (some 0)
      s1.assign_chord chordF none none none (some 64)) =
      (Except.error .indexError : Except PyErr Section)) := by
  constructor <;> decide

/-- C4: the claim states the invariant total_units = num_measures *
beats_per_measure * units_per_beat together with a chord sequence of
exactly that length after every successful operation.  truncate validates
start_measure < 0 instead of start_measure < 1, so truncate(0, 1) on a
fresh default section succeeds and leaves num_measures = 2 and total_units
= 16 while the sliced chord sequence (Python slice [-8:8]) is empty,
violating the invariant. -/
theorem C4_theorem :
    (do
      let s ← Section.init none none "4/4" "C" 8 2 false
      let s2 ← s.truncate 0 1
      pure (s2.num_measures, s2.total_units, s2.chord_progression.length)) =
    Except.ok ((2 : Int), (16 : Int), (0 : Nat)) := by
  decide

/-- Counterexample for C8: the scenario's section has 4 measures of 4 beats
with 2 units per beat, hence 32 units, and the final C keeps filling beyond
unit 15: unit 16 also holds C, so the realized timeline is not exhausted by
the four four-unit spans the claim lists. -/
theorem C8_counterexample :
    (do
      let s ← Section.init none none "4/4" "C" 4 2 false
      let cI ← chordParserFn drawPlain "I" "C"
      let cIV ← chordParserFn drawPlain "IV" "C"
      let cV ← chordParserFn drawPlain "V" "C"
      let r ← parse_chord_selections s [0, 4, 8, 12] [cI, cIV, cV, cI]
      pure (r.chord_progression.length, r.chord_progression.getD 16 none)) =
    Except.ok ((32 : Nat), some chordC) := by
  decide

/-- C8 (amended): realizing I, IV, V, I in key C with both Bernoulli
outcomes forced false at change locations 0, 4, 8, 12 of the empty
4-measure, 4/4, 2-units-per-beat section yields the 32-unit timeline with C
on units 0-3, F on 4-7, G on 8-11 and the final C on units 12-31. -/
theorem C8_theorem :
    (do
      let s ← Section.init none none "4/4" "C" 4 2 false
      let cI ← chordParserFn drawPlain "I" "C"
      let cIV ← chordParserFn drawPlain "IV" "C"
      let cV ← chordParserFn drawPlain "V" "C"
      let r ← parse_chord_selections s [0, 4, 8, 12] [cI, cIV, cV, cI]
      pure r.chord_progression) =
    Except.ok (List.replicate 4 (some chordC) ++ List.replicate 4 (some chordF) ++
      List.replicate 4 (some chordG) ++ List.replicate 20 (some chordC)) := by
  decide

/-- Counterexample for C7: halve on an even two-measure section raises,
because it calls truncate(1, 1) for the first half and truncate requires
start_measure strictly before end_measure; the claim asserts success for
every even measure count. -/
theorem C7_counterexample :
    (do
      let s ← Section.init none none "4/4" "C" 2 2 false
      s.halve 0) =
    (Except.error (.valueError "start and end measures must be legitimate measure numbers and start measure must preceed end measure") :
      Except PyErr Section) := by
  decide

/-- Python slicing with in-range non-negative bounds is take-then-drop. -/
theorem pySlice_take_drop {α : Type} (l : List α) (a b : Int)
    (ha0 : 0 ≤ a) (hab : a ≤ (l.length : Int)) (hb0 : 0 ≤ b)
    (hbl : b ≤ (l.length : Int)) :
    pySlice l a b = (l.take b.toNat).drop a.toNat := by
  have h1 : ¬ a < 0 := by omega
  have h2 : ¬ b < 0 := by omega
  simp only [pySlice, if_neg h1, if_neg h2, min_eq_left hab, min_eq_left hbl]

/-- C7 (amended): halve raises on every odd measure count, and for sections
with an even measure count of at least four (a two-measure section makes
halve call truncate with start_measure = end_measure, which truncate
rejects) halve(0) keeps exactly the first half of the measures and of the
chord sequence and halve(1) keeps exactly the second half. -/
theorem C7_theorem (s : Section)
    (hts : s.total_units = s.num_measures * s.beats_per_measure * s.units_per_beat)
    (hlen : (s.chord_progression.length : Int) = s.total_units)
    (hupb : 0 < s.units_per_beat) (hbpm : 0 < s.beats_per_measure) :
    (∀ half, s.num_measures % 2 ≠ 0 →
      s.halve half = .error (.valueError "number of measures must be divisible by 2")) ∧
    (s.num_measures % 2 = 0 → 4 ≤ s.num_measures →
      (∃ s0, s.halve 0 = .ok s0 ∧
        s0.num_measures = s.num_measures / 2 ∧
        s0.total_units = s.num_measures / 2 * s.beats_per_measure * s.units_per_beat ∧
        s0.chord_progression = s.chord_progression.take
          ((s.num_measures / 2 * s.units_per_beat * s.beats_per_measure).toNat)) ∧
      (∃ s1, s.halve 1 = .ok s1 ∧
        s1.num_measures = s.num_measures / 2 ∧
        s1.total_units = s.num_measures / 2 * s.beats_per_measure * s.units_per_beat ∧
        s1.chord_progression = s.chord_progression.drop
          ((s.num_measures / 2 * s.units_per_beat * s.beats_per_measure).toNat))) := by
  constructor
  · intro half hodd
    simp only [Section.halve, if_pos hodd]
  · intro heven hge4
    have h2n : s.num_measures / 2 + s.num_measures / 2 = s.num_measures := by
      omega
    have hn2ge : 2 ≤ s.num_measures / 2 := by omega
    have hn2len : s.num_measures / 2 ≤ s.num_measures := by omega
    have hprodpos : (0 : Int) ≤ s.units_per_beat * s.beats_per_measure :=
      le_of_lt (mul_pos hupb hbpm)
    have hlen' : (s.chord_progression.length : Int) =
        s.num_measures * (s.units_per_beat * s.beats_per_measure) := by
      rw [hlen, hts]; ring
    have hle1 : s.num_measures / 2 * s.units_per_beat * s.beats_per_measure ≤
        (s.chord_progression.length : Int) := by
      rw [hlen', mul_assoc]
      exact mul_le_mul_of_nonneg_right hn2len hprodpos
    have hge0 : (0 : Int) ≤ s.num_measures / 2 * s.units_per_beat * s.beats_per_measure := by
      rw [mul_assoc]
      exact mul_nonneg (by omega) hprodpos
    have hlen2 : s.num_measures * s.units_per_beat * s.beats_per_measure =
        (s.chord_progression.length : Int) := by
      rw [hlen']; ring
    have hhalve0 : Section.halve s 0 =
        s.truncate 1 (s.num_measures / 2) := by
      simp only [Section.halve, if_neg (by omega : ¬ s.num_measures % 2 ≠ 0)]
      norm_num
    have hhalve1 : Section.halve s 1 =
        s.truncate (1 + s.num_measures / 2)
          (s.num_measures / 2 + s.num_measures / 2) := by
      simp only [Section.halve, if_neg (by omega : ¬ s.num_measures % 2 ≠ 0)]
      norm_num
    have hb0 : (0 : Int) ≤ s.num_measures * s.units_per_beat * s.beats_per_measure := by
      rw [hlen2]; exact Int.natCast_nonneg _
    constructor
    · -- first half
      have hcond : ¬ ((1 : Int) < 0 ∨ s.num_measures / 2 < 0 ∨
          1 > s.num_measures ∨ s.num_measures / 2 > s.num_measures ∨
          1 ≥ s.num_measures / 2) := by omega
      have hres0 : s.halve 0 = .ok { s with
          num_measures := s.num_measures / 2 - 1 + 1
          total_units := (s.num_measures / 2 - 1 + 1) * s.beats_per_measure *
            s.units_per_beat
          chord_progression := pySlice s.chord_progression
            ((1 - 1) * s.units_per_beat * s.beats_per_measure)
            (s.num_measures / 2 * s.units_per_beat * s.beats_per_measure) } := by
        rw [hhalve0]
        simp only [Section.truncate, if_neg hcond]
      refine ⟨_, hres0, ?_, ?_, ?_⟩
      · show s.num_measures / 2 - 1 + 1 = s.num_measures / 2
        omega
      · show (s.num_measures / 2 - 1 + 1) * s.beats_per_measure * s.units_per_beat = _
        have h1 : s.num_measures / 2 - 1 + 1 = s.num_measures / 2 := by omega
        rw [h1]
      · show pySlice s.chord_progression
            ((1 - 1) * s.units_per_beat * s.beats_per_measure)
            (s.num_measures / 2 * s.units_per_beat * s.beats_per_measure) = _
        have hsu : ((1 : Int) - 1) * s.units_per_beat * s.beats_per_measure = 0 := by
          ring
        rw [hsu, pySlice_take_drop _ _ _ le_rfl (Int.natCast_nonneg _) hge0 hle1]
        simp
    · -- second half
      have hcond : ¬ ((1 : Int) + s.num_measures / 2 < 0 ∨
          s.num_measures / 2 + s.num_measures / 2 < 0 ∨
          1 + s.num_measures / 2 > s.num_measures ∨
          s.num_measures / 2 + s.num_measures / 2 > s.num_measures ∨
          1 + s.num_measures / 2 ≥ s.num_measures / 2 + s.num_measures / 2) := by
        omega
      have hres1 : s.halve 1 = .ok { s with
          num_measures := s.num_measures / 2 + s.num_measures / 2 -
            (1 + s.num_measures / 2) + 1
          total_units := (s.num_measures / 2 + s.num_measures / 2 -
            (1 + s.num_measures / 2) + 1) * s.beats_per_measure * s.units_per_beat
          chord_progression := pySlice s.chord_progression
            ((1 + s.num_measures / 2 - 1) * s.units_per_beat * s.beats_per_measure)
            ((s.num_measures / 2 + s.num_measures / 2) * s.units_per_beat *
              s.beats_per_measure) } := by
        rw [hhalve1]
        simp only [Section.truncate, if_neg hcond]
      refine ⟨_, hres1, ?_, ?_, ?_⟩
      · show s.num_measures / 2 + s.num_measures / 2 - (1 + s.num_measures / 2) + 1 =
          s.num_measures / 2
        omega
      · show (s.num_measures / 2 + s.num_measures / 2 - (1 + s.num_measures / 2) + 1) *
            s.beats_per_measure * s.units_per_beat = _
        have h1 : s.num_measures / 2 + s.num_measures / 2 - (1 + s.num_measures / 2) +
            1 = s.num_measures / 2 := by omega
        rw [h1]
      · show pySlice s.chord_progression
            ((1 + s.num_measures / 2 - 1) * s.units_per_beat * s.beats_per_measure)
            ((s.num_measures / 2 + s.num_measures / 2) * s.units_per_beat *
              s.beats_per_measure) = _
        have hsu : ((1 : Int) + s.num_measures / 2 - 1) * s.units_per_beat *
            s.beats_per_measure =
            s.num_measures / 2 * s.units_per_beat * s.beats_per_measure := by ring
        have heu : (s.num_measures / 2 + s.num_measures / 2) * s.units_per_beat *
            s.beats_per_measure =
            s.num_measures * s.units_per_beat * s.beats_per_measure := by rw [h2n]
        rw [hsu, heu, pySlice_take_drop _ _ _ hge0 hle1 hb0 (le_of_eq hlen2), hlen2]
        simp

/-- Witness for C7: the four-measure section splits into measures 1-2 and
3-4 (units 0-15 and 16-31), and a three-measure section raises. -/
theorem C7_witness :
    ((demoSec4.total_units =
        demoSec4.num_measures * demoSec4.beats_per_measure * demoSec4.units_per_beat) ∧
      ((demoSec4.chord_progression.length : Int) = demoSec4.total_units) ∧
      (0 < demoSec4.units_per_beat) ∧ (0 < demoSec4.beats_per_measure) ∧
      (demoSec4.num_measures % 2 = 0) ∧ (4 ≤ demoSec4.num_measures) ∧
      (demoSec3.num_measures % 2 ≠ 0)) ∧
    ((∃ s0, demoSec4.halve 0 = .ok s0 ∧
        s0.num_measures = demoSec4.num_measures / 2 ∧
        s0.total_units = demoSec4.num_measures / 2 * demoSec4.beats_per_measure *
          demoSec4.units_per_beat ∧
        s0.chord_progression = demoSec4.chord_progression.take
          ((demoSec4.num_measures / 2 * demoSec4.units_per_beat *
            demoSec4.beats_per_measure).toNat)) ∧
      (∃ s1, demoSec4.halve 1 = .ok s1 ∧
        s1.num_measures = demoSec4.num_measures / 2 ∧
        s1.total_units = demoSec4.num_measures / 2 * demoSec4.beats_per_measure *
          demoSec4.units_per_beat ∧
        s1.chord_progression = demoSec4.chord_progression.drop
          ((demoSec4.num_measures / 2 * demoSec4.units_per_beat *
            demoSec4.beats_per_measure).toNat))) ∧
    (demoSec3.halve 0 = .error (.valueError "number of measures must be divisible by 2")) :=
  ⟨⟨by decide, by decide, by decide, by decide, by decide, by decide, by decide⟩,
    (C7_theorem demoSec4 (by decide) (by decide) (by decide) (by decide)).2
      (by decide) (by decide),
    (C7_theorem demoSec3 (by decide) (by decide) (by decide) (by decide)).1
      0 (by decide)⟩

/-- Inversion principle for bind on Except. -/
theorem exBind_ok {ε α β : Type} {x : Except ε α} {f : α → Except ε β} {b : β} :
    (x >>= f) = .ok b ↔ ∃ a, x = .ok a ∧ f a = .ok b := by
  cases x <;> simp [Bind.bind, Except.bind]

/-- Bind after a pure success just applies the continuation. -/
theorem exOk_bind {ε α β : Type} (a : α) (f : α → Except ε β) :
    ((Except.ok a : Except ε α) >>= f) = f a := rfl

/-- Setting an index in range makes lookup at that index return the new
value. -/
theorem get?_set_self {α : Type} :
    ∀ (l : List α) (i : Nat) (a : α), i < l.length → (l.set i a).get? i = some a
  | [], i, _, h => by simp at h
  | _ :: _, 0, _, _ => rfl
  | _ :: xs, i + 1, a, h =>
    by simpa using get?_set_self xs i a (by simpa using h)

/-- A successful in-place transpose of a section object leaves the variation
dictionary untouched and stores the requested key on that object. -/
theorem transposeH_ok {st st2 : SelSt} {rr : Nat} {k : String}
    (h : transposeH st rr k = .ok st2) :
    st2.var_dict = st.var_dict ∧ st2.change_indices = st.change_indices ∧
      ∃ ob, getSec st2 rr = .ok ob ∧ ob.key = k := by
  unfold transposeH at h
  rw [exBind_ok] at h
  obtain ⟨ob, hob, h⟩ := h
  rw [exBind_ok] at h
  obtain ⟨l, _, h⟩ := h
  rw [exBind_ok] at h
  obtain ⟨l2, _, h⟩ := h
  simp only [allocList, setSec, Except.ok.injEq] at h
  subst h
  have hlt : rr < st.secs.length := by
    unfold getSec at hob
    cases hg : st.secs.get? rr with
    | none => rw [hg] at hob; cases hob
    | some o =>
      exact (List.get?_eq_some.mp hg).1
  refine ⟨rfl, rfl, { ob with key := k, listRef := st.lists.length }, ?_, rfl⟩
  unfold getSec
  rw [get?_set_self _ _ _ (by simpa using hlt)]

/-- The cached branch of get_variation with no key request returns the
cached reference and leaves the state untouched. -/
theorem get_variation_cached_none (P : ChordChangeProbs) (st : SelSt) (var : Int)
    (e : VarEntry) (o : VarOracle) (he : dictGet st.var_dict var = some e) :
    get_variation P st var e.allow_double none o = .ok (st, e.resultRef) := by
  unfold get_variation
  simp [he, Bind.bind, Except.bind]

/-- C1 (amended): on a cache hit with a key request, get_variation returns
the cached section object itself after transposing it in place: the
dictionary still maps the variation to the same entry, but the section
object it references now carries the requested key, and a subsequent
get_variation for the same variation with no key returns that same
transposed object, not the originally stored timeline. -/
theorem C1_theorem (P : ChordChangeProbs) (st st' : SelSt) (var : Int)
    (e : VarEntry) (k : String) (o o2 : VarOracle) (r : Nat)
    (he : dictGet st.var_dict var = some e)
    (hcall : get_variation P st var e.allow_double (some k) o = .ok (st', r)) :
    r = e.resultRef ∧
    dictGet st'.var_dict var = some e ∧
    (∃ ob, getSec st' r = .ok ob ∧ ob.key = k) ∧
    get_variation P st' var e.allow_double none o2 = .ok (st', r) := by
  unfold get_variation at hcall
  simp only [he, ne_eq, not_true_eq_false, if_false, ite_false, exOk_bind] at hcall
  rw [exBind_ok] at hcall
  obtain ⟨st2, hT, hpure⟩ := hcall
  simp only [Except.ok.injEq, Prod.mk.injEq] at hpure
  obtain ⟨h1, h2⟩ := hpure
  subst h1
  obtain ⟨hvd, _, hob⟩ := transposeH_ok hT
  subst h2
  refine ⟨rfl, ?_, hob, ?_⟩
  · rw [hvd]; exact he
  · exact get_variation_cached_none P st2 var e o2 (by rw [hvd]; exact he)

/-- Counterexample for C1: on the fresh demo selector, requesting the cached
variation 0 transposed to D changes the key of the timeline stored in the
cache from C to D (the very object the cache references is returned), so the
cache is mutated and a later keyless request cannot see the original stored
result. -/
theorem C1_counterexample :
    (do
      let st ← selDemo
      let e0 ← match dictGet st.var_dict 0 with
        | some e => Except.ok e
        | none => Except.error PyErr.keyError
      let o0 ← getSec st e0.resultRef
      let (st2, r) ← get_variation sampleCCP st 0 false (some "D") ⟨0, 0, 0, 0, drawPlain⟩
      let o1 ← getSec st2 r
      pure (o0.key, o1.key, decide (r = e0.resultRef))) =
    Except.ok ("C", "D", true) := by
  decide

/-- Witness for C1 at the demo selector state: variation 0 is cached, the
keyed request succeeds, and the theorem's conclusions hold there. -/
theorem C1_witness :
    (0 : Nat) = (⟨0, false, none⟩ : VarEntry).resultRef ∧
    dictGet selDemoStD.var_dict 0 = some ⟨0, false, none⟩ ∧
    (∃ ob, getSec selDemoStD 0 = .ok ob ∧ ob.key = "D") ∧
    get_variation sampleCCP selDemoStD 0 (⟨0, false, none⟩ : VarEntry).allow_double
      none ⟨0, 0, 0, 0, drawPlain⟩ = .ok (selDemoStD, 0) :=
  C1_theorem sampleCCP selDemoSt selDemoStD 0 ⟨0, false, none⟩ "D"
    ⟨0, 0, 0, 0, drawPlain⟩ ⟨0, 0, 0, 0, drawPlain⟩ 0 (by decide) (by decide)

/-- C2: the claim states that deriving a fresh variation never mutates the
base section.  The working copy is a shallow copy sharing the base's
chord_progression list object, so a change-type variation rewrites the base
timeline in place: on the demo selector (base C C C C F F F F), deriving
variation 1 with edit type change on the last chord (substitute draw V,
parser draws false) rewrites units 4-7 of the base section's own list from
F to G. -/
theorem C2_theorem :
    (do
      let st ← selDemo
      let bo ← getSec st st.baseRef
      let before ← getList st bo.listRef
      let (st2, _) ← get_variation sampleCCP st 1 false none ⟨2, 1, 2, 0, drawPlain⟩
      let bo2 ← getSec st2 st2.baseRef
      let after ← getList st2 bo2.listRef
      pure (before.getD 4 none, after.getD 4 none)) =
    Except.ok (some chordF, some chordG) := by
  decide

/-- A successful in-place chord assignment on a section object changes only
the list heap. -/
theorem assignChordH_pres {st st2 : SelSt} {r : Nat} {c : PyChord}
    {m b u a : Option Int} (h : assignChordH st r c m b u a = .ok st2) :
    st2.secs = st.secs ∧ st2.baseRef = st.baseRef ∧ st2.var_dict = st.var_dict ∧
      st2.change_indices = st.change_indices ∧
      st2.chords_nashville = st.chords_nashville ∧
      st2.base_chords = st.base_chords := by
  unfold assignChordH at h
  rw [exBind_ok] at h
  obtain ⟨o, _, h⟩ := h
  rw [exBind_ok] at h
  obtain ⟨l, _, h⟩ := h
  rw [exBind_ok] at h
  obtain ⟨l2, _, h⟩ := h
  simp only [setList, Except.ok.injEq] at h
  subst h
  exact ⟨rfl, rfl, rfl, rfl, rfl, rfl⟩

/-- The parse_chord_selections loop changes only the list heap. -/
theorem parseGoH_pres :
    ∀ (l : List (Int × PyChord)) (st : SelSt) (r : Nat) (st2 : SelSt),
      parseGoH st r l = .ok st2 →
      st2.secs = st.secs ∧ st2.baseRef = st.baseRef ∧ st2.var_dict = st.var_dict ∧
        st2.change_indices = st.change_indices ∧
        st2.chords_nashville = st.chords_nashville ∧
        st2.base_chords = st.base_chords := by
  intro l
  induction l with
  | nil =>
    intro st r st2 h
    simp only [parseGoH, Except.ok.injEq] at h
    subst h
    exact ⟨rfl, rfl, rfl, rfl, rfl, rfl⟩
  | cons hd tl ih =>
    intro st r st2 h
    simp only [parseGoH] at h
    rw [exBind_ok] at h
    obtain ⟨o, _, h⟩ := h
    by_cases hc : ¬ (0 ≤ hd.1 ∧ hd.1 < o.total_units)
    · rw [if_pos hc] at h
      cases h
    · rw [if_neg hc] at h
      rw [exBind_ok] at h
      obtain ⟨stA, hA, h⟩ := h
      have p1 := assignChordH_pres hA
      have p2 := ih stA r st2 h
      exact ⟨p2.1.trans p1.1, p2.2.1.trans p1.2.1, p2.2.2.1.trans p1.2.2.1,
        p2.2.2.2.1.trans p1.2.2.2.1, p2.2.2.2.2.1.trans p1.2.2.2.2.1,
        p2.2.2.2.2.2.trans p1.2.2.2.2.2⟩

/-- Requesting a cached variation with the opposite allow_double flag
raises. -/
theorem get_variation_flag_mismatch (P : ChordChangeProbs) (st : SelSt)
    (var : Int) (e : VarEntry) (key : Option String) (o : VarOracle)
    (he : dictGet st.var_dict var = some e) (hf : e.allow_double = false) :
    get_variation P st var true key o =
      .error (.valueError "allow double flag is not correct for this variation") := by
  unfold get_variation
  simp [he, hf, Bind.bind, Except.bind]

/-- C9 (amended): on every freshly constructed selector, get_variation(0,
allow_double = False) returns the cached variation-0 entry, which is the
base section object (reference 0, the base-assigned timeline), without
changing the selector state; get_variation(0, allow_double = True) instead
raises, because variation 0 is stored with allow_double = False and the
cached branch rejects a mismatched flag. -/
theorem C9_theorem (sec : Section) (ci : List Int) (syms : List String)
    (draws : Nat → ParserDraw) (st : SelSt) (P : ChordChangeProbs) (o : VarOracle)
    (h : cps_init sec ci syms draws = .ok st) :
    st.baseRef = 0 ∧
    dictGet st.var_dict 0 = some ⟨0, false, none⟩ ∧
    get_variation P st 0 false none o = .ok (st, 0) ∧
    get_variation P st 0 true none o =
      .error (.valueError "allow double flag is not correct for this variation") := by
  unfold cps_init at h
  rw [exBind_ok] at h
  obtain ⟨bc, _, h⟩ := h
  rw [exBind_ok] at h
  obtain ⟨st1, hparse, h⟩ := h
  simp only [Except.ok.injEq] at h
  subst h
  have hp : st1.baseRef = 0 := by
    unfold parseChordSelectionsH at hparse
    by_cases hl : ci.length ≠ bc.length
    · rw [if_pos hl] at hparse
      cases hparse
    · rw [if_neg hl] at hparse
      exact (parseGoH_pres _ _ _ _ hparse).2.1
  have hd : dictGet [((0 : Int), (⟨0, false, none⟩ : VarEntry))] 0 =
      some ⟨0, false, none⟩ := by
    simp [dictGet]
  refine ⟨hp, hd, ?_, ?_⟩
  · exact get_variation_cached_none P _ 0 ⟨0, false, none⟩ o hd
  · exact get_variation_flag_mismatch P _ 0 ⟨0, false, none⟩ none o hd rfl

/-- Counterexample for C9: on the fresh demo selector, get_variation(0,
allow_double = True) raises instead of returning the base timeline. -/
theorem C9_counterexample :
    (do
      let st ← selDemo
      get_variation sampleCCP st 0 true none ⟨0, 0, 0, 0, drawPlain⟩) =
    (Except.error (.valueError "allow double flag is not correct for this variation") :
      Except PyErr (SelSt × Nat)) := by
  decide

/-- Witness for C9 at the demo selector. -/
theorem C9_witness :
    selDemoSt.baseRef = 0 ∧
    dictGet selDemoSt.var_dict 0 = some ⟨0, false, none⟩ ∧
    get_variation sampleCCP selDemoSt 0 false none ⟨0, 0, 0, 0, drawPlain⟩ =
      .ok (selDemoSt, 0) ∧
    get_variation sampleCCP selDemoSt 0 true none ⟨0, 0, 0, 0, drawPlain⟩ =
      .error (.valueError "allow double flag is not correct for this variation") :=
  C9_theorem demoSec1 [0, 4] ["I", "IV"] (fun _ => drawPlain) selDemoSt sampleCCP
    ⟨0, 0, 0, 0, drawPlain⟩ (by decide)

/-- An element returned by the weighted-draw model belongs to the
population. -/
theorem pickSupport_mem {α : Type} {pop : List α} {ws : List ℚ} {k : Nat} {x : α}
    (h : pickSupport pop ws k = .ok x) : x ∈ pop := by
  unfold pickSupport at h
  split at h
  · cases h
  next p ps =>
    split at h
    · cases h
    next y ys heq =>
      simp only [Except.ok.injEq] at h
      subst h
      have hmem : (y :: ys).getD (k % (ys.length + 1)) y ∈ y :: ys := by
        have hlt : k % (ys.length + 1) < (y :: ys).length := by
          simp only [List.length_cons]
          exact Nat.mod_lt _ (Nat.succ_pos _)
        rw [List.getD_eq_getElem _ _ hlt]
        exact List.getElem_mem hlt
      have hsub : ∀ z, z ∈ y :: ys → z ∈ p :: ps := by
        intro z hz
        rw [← heq] at hz
        simp only [List.mem_map, List.mem_filter] at hz
        obtain ⟨pair, ⟨hzip, _⟩, hfst⟩ := hz
        rw [← hfst]
        exact (List.of_mem_zip hzip).1
      exact hsub _ hmem

/-- A node drawn by the walk step is an edge target of the current node. -/
theorem pick_succ_edge {g : PyDiGraph} {cur nxt : String} {k : Nat}
    (h : pickSupport ((successorsP g cur).map (·.1))
      ((successorsP g cur).map (·.2)) k = .ok nxt) :
    isEdge g cur nxt := by
  have hmem := pickSupport_mem h
  simp only [successorsP, List.map_map, List.mem_map, List.mem_filter,
    Function.comp] at hmem
  obtain ⟨e, ⟨he, hfst⟩, hsnd⟩ := hmem
  refine ⟨e.2.2, ?_⟩
  have : e = (e.1, e.2.1, e.2.2) := rfl
  rw [this] at he
  rw [← hsnd]
  simp only [decide_eq_true_eq] at hfst
  rw [← hfst]
  exact he

/-- Invariant-carrying specification of the sampling loop: if the reversed
accumulator starts at the source, is edge-chained and reachable, then any
returned path starts at the source, ends at the sink, follows edges, and
visits only nodes reachable from the source. -/
theorem walkLoop_spec (d : ProbDAGSt) (oracle : Nat → Nat) :
    ∀ (fuel : Nat) (cur : String) (acc : List String) (k : Nat) (p : List String),
      walkLoop d oracle fuel cur acc k = .ok p →
      acc.head? = some cur →
      acc.getLast? = some d.source →
      List.Chain' (fun a b => isEdge d.graph b a) acc →
      (∀ x ∈ acc, Reach d.graph d.source x) →
      p.head? = some d.source ∧ p.getLast? = some d.sink ∧
        List.Chain' (isEdge d.graph) p ∧ ∀ x ∈ p, Reach d.graph d.source x := by
  intro fuel
  induction fuel with
  | zero =>
    intro cur acc k p h
    cases h
  | succ fuel ih =>
    intro cur acc k p h hhead hlast hchain hreach
    unfold walkLoop at h
    by_cases hcur : cur = d.sink
    · rw [if_pos hcur] at h
      simp only [Except.ok.injEq] at h
      subst h
      refine ⟨?_, ?_, ?_, ?_⟩
      · rw [List.head?_reverse]
        exact hlast
      · rw [List.getLast?_reverse, hhead, hcur]
      · rw [List.chain'_reverse]
        exact hchain
      · intro x hx
        exact hreach x (List.mem_reverse.mp hx)
    · rw [if_neg hcur] at h
      rw [exBind_ok] at h
      obtain ⟨nxt, hpick, h⟩ := h
      have hedge : isEdge d.graph cur nxt := pick_succ_edge hpick
      cases acc with
      | nil => cases hhead
      | cons a as =>
        have ha : a = cur := by
          simp only [List.head?_cons, Option.some.injEq] at hhead
          exact hhead
        subst ha
        have hreach' : Reach d.graph d.source nxt :=
          Reach.tail (hreach a (List.mem_cons_self _ _)) hedge
        refine ih nxt (nxt :: a :: as) (k + 1) p h rfl ?_ ?_ ?_
        · rw [List.getLast?_cons_cons]
          exact hlast
        · rw [List.chain'_cons]
          exact ⟨hedge, hchain⟩
        · intro x hx
          rcases List.mem_cons.mp hx with hx1 | hx2
          · rw [hx1]; exact hreach'
          · exact hreach x hx2

/-- C5: every list returned by get_random_path on a validly constructed
ProbDAG starts at the validated source, ends at the validated sink, follows
the graph's edges at every consecutive pair, and hence visits only nodes
reachable from the source. -/
theorem C5_theorem (g : PyDiGraph) (d : ProbDAGSt) (oracle : Nat → Nat)
    (fuel : Nat) (p : List String)
    (_hinit : ProbDAG.init g = .ok d)
    (hpath : get_random_path d oracle fuel = .ok p) :
    p.head? = some d.source ∧ p.getLast? = some d.sink ∧
      List.Chain' (isEdge d.graph) p ∧ ∀ x ∈ p, Reach d.graph d.source x := by
  refine walkLoop_spec d oracle fuel d.source [d.source] 0 p hpath rfl rfl
    (List.chain'_singleton _) ?_
  intro x hx
  rcases List.mem_cons.mp hx with hx1 | hx2
  · rw [hx1]; exact Reach.refl _
  · cases hx2

/-- Witness for C5: the demonstration graph validates with source a and
sink b, and the sampled walk [a, b] satisfies all four conclusions. -/
theorem C5_witness :
    (ProbDAG.init dagDemo = .ok ⟨dagDemo, "a", "b"⟩) ∧
    (get_random_path ⟨dagDemo, "a", "b"⟩ (fun _ => 0) 5 = .ok ["a", "b"]) ∧
    (["a", "b"].head? = some (⟨dagDemo, "a", "b"⟩ : ProbDAGSt).source ∧
      ["a", "b"].getLast? = some (⟨dagDemo, "a", "b"⟩ : ProbDAGSt).sink ∧
      List.Chain' (isEdge (⟨dagDemo, "a", "b"⟩ : ProbDAGSt).graph) ["a", "b"] ∧
      ∀ x ∈ ["a", "b"],
        Reach (⟨dagDemo, "a", "b"⟩ : ProbDAGSt).graph
          (⟨dagDemo, "a", "b"⟩ : ProbDAGSt).source x) := by
  have hinit : ProbDAG.init dagDemo = .ok ⟨dagDemo, "a", "b"⟩ := by
    simp +decide [ProbDAG.init, dagDemo, topologicalSort, kahn, reachableFrom,
      reachIter, reachStep, undirNeighbors, succNames, predNames, successorsP,
      checkAllProbs, checkNodeProbs, roundHalfEven5, List.find?, List.erase,
      Bind.bind, Except.bind]
  have hpath : get_random_path ⟨dagDemo, "a", "b"⟩ (fun _ => 0) 5 = .ok ["a", "b"] := by
    decide
  exact ⟨hinit, hpath,
    C5_theorem dagDemo ⟨dagDemo, "a", "b"⟩ (fun _ => 0) 5 ["a", "b"] hinit hpath⟩

/-!
Groundwork for the concat specification (claim C6).  The statements are
pointwise, over List.getD with default none.
-/

/-- Reading a list at an in-range natural index through the Python accessor
yields the getD value. -/
theorem pyGet_nat {α : Type} (l : List α) (u : Nat) (d : α) (h : u < l.length) :
    pyGet l (u : Int) = .ok (l.getD u d) := by
  unfold pyGet
  have h0 : ¬ ((u : Int) < 0) := by omega
  rw [if_neg h0]
  simp only [if_pos (by omega : (0 : Int) ≤ (u : Int)), Int.toNat_natCast]
  rw [List.getD_eq_getElem l d h]
  rw [List.get?_eq_getElem?, List.getElem?_eq_getElem h]

/-- Writing a list at an in-range natural index through the Python accessor
is List.set. -/
theorem pySet_nat {α : Type} (l : List α) (u : Nat) (a : α) (h : u < l.length) :
    pySet l (u : Int) a = .ok (l.set u a) := by
  unfold pySet
  have h0 : ¬ ((u : Int) < 0) := by omega
  rw [if_neg h0]
  rw [if_pos (by constructor <;> omega), Int.toNat_natCast]

/-- Setting one index leaves getD at other indices unchanged. -/
theorem getD_set_ne {α : Type} :
    ∀ (l : List α) (m j : Nat) (a d : α), m ≠ j →
      (l.set m a).getD j d = l.getD j d
  | [], _, _, _, _, _ => rfl
  | _ :: _, 0, 0, _, _, h => absurd rfl h
  | _ :: _, 0, _ + 1, _, _, _ => rfl
  | _ :: _, _ + 1, 0, _, _, _ => rfl
  | _ :: xs, m + 1, j + 1, a, d, h =>
    by simpa [List.getD_cons_succ] using getD_set_ne xs m j a d (by omega)

/-- Setting an in-range index makes getD there return the new value. -/
theorem getD_set_self {α : Type} :
    ∀ (l : List α) (m : Nat) (a d : α), m < l.length →
      (l.set m a).getD m d = a
  | [], _, _, _, h => by simp at h
  | _ :: _, 0, _, _, _ => rfl
  | _ :: xs, m + 1, a, d, h =>
    by simpa [List.getD_cons_succ] using getD_set_self xs m a d (by simpa using h)

/-- Pychord equality is reflexive on well-formed chords. -/
theorem pychordEq_refl {c : PyChord} (h : chordOK c = true) :
    pychordEq c c = .ok true := by
  unfold chordOK at h
  rw [Bool.and_eq_true] at h
  obtain ⟨h1, h2⟩ := h
  obtain ⟨v, hv⟩ := Option.isSome_iff_exists.mp h1
  unfold pychordEq noteVal
  rw [hv]
  simp only [exOk_bind, ne_eq, not_true_eq_false, ite_false, if_neg]
  cases hon : c.«on» with
  | none => rfl
  | some o =>
    rw [hon] at h2
    obtain ⟨w, hw⟩ := Option.isSome_iff_exists.mp (by simpa using h2)
    simp [noteVal, hw, exOk_bind]

/-- Python == of a well-formed chord-or-None value with itself is True. -/
theorem pyEqOC_refl {e : Option PyChord} (h : okOpt e = true) :
    pyEqOC e e = .ok true := by
  cases e with
  | none => rfl
  | some c => exact pychordEq_refl h

theorem lastSome_append_one (l : List (Option PyChord)) (x : Option PyChord) :
    lastSome (l ++ [x]) =
      match x with
      | some c => some c
      | none => lastSome l := by
  induction l with
  | nil => cases x <;> rfl
  | cons y ys ih =>
    show (match lastSome (ys ++ [x]) with
          | some c => some c
          | none => y) = _
    rw [ih]
    cases x with
    | some c => rfl
    | none => rfl

theorem lastSome_mem : ∀ {l : List (Option PyChord)} {c : PyChord},
    lastSome l = some c → some c ∈ l := by
  intro l
  induction l with
  | nil => intro c h; cases h
  | cons x xs ih =>
    intro c h
    cases hx : lastSome xs with
    | some c0 =>
      have hc : lastSome (x :: xs) = some c0 := by
        unfold lastSome
        rw [hx]
      rw [hc] at h
      cases h
      exact List.mem_cons_of_mem _ (ih hx)
    | none =>
      have hc : lastSome (x :: xs) = x := by
        unfold lastSome
        rw [hx]
      rw [hc] at h
      rw [h]
      exact List.mem_cons_self _ _

theorem lastSome_all_none : ∀ {l : List (Option PyChord)},
    (∀ y ∈ l, y = none) → lastSome l = none := by
  intro l
  induction l with
  | nil => intro _; rfl
  | cons x xs ih =>
    intro h
    have hx := h x (List.mem_cons_self _ _)
    have hxs := ih (fun y hy => h y (List.mem_cons_of_mem _ hy))
    unfold lastSome
    rw [hxs, hx]

theorem runVal_zero (L : List (Option PyChord)) : runVal L 0 = none := rfl

theorem runVal_succ (L : List (Option PyChord)) (u : Nat) (h : u < L.length) :
    runVal L (u + 1) =
      match L.getD u none with
      | some c => some c
      | none => runVal L u := by
  unfold runVal
  rw [List.take_succ, List.getElem?_eq_getElem h]
  simp only [Option.toList_some]
  rw [lastSome_append_one, List.getD_eq_getElem L none h]

theorem runVal_none_of (L : List (Option PyChord)) (u : Nat)
    (hnpf : nonePrefixForm L) (hu : u < L.length) (h : L.getD u none = none) :
    runVal L u = none := by
  apply lastSome_all_none
  intro y hy
  obtain ⟨i, hi, hih⟩ := List.mem_take_iff_getElem.mp hy
  have hival : L.getD i none = y := by
    rw [List.getD_eq_getElem L none (by omega)]
    rw [← hih]
  rw [← hival]
  exact hnpf i u (by omega) hu h

theorem runVal_ok (L : List (Option PyChord)) (u : Nat) (hok : progOK L) :
    okOpt (runVal L u) = true := by
  cases hr : runVal L u with
  | none => rfl
  | some c =>
    have := lastSome_mem hr
    exact hok _ (List.take_subset _ _ this)

/-- The fill-forward loop over a constant tail: when every slot after i
still holds the overwritten value, the loop rewrites the whole remaining
tail with the new chord. -/
theorem fillLoop_const (e : Option PyChord) (c : PyChord)
    (he : pyEqOC e e = .ok true) :
    ∀ (fuel : Nat) (L : List (Option PyChord)) (i : Nat),
      L.length ≤ i + 1 + fuel →
      (∀ j, i < j → j < L.length → L.getD j none = e) →
      ∃ L2, fillLoop fuel L e c (i : Int) (L.length : Int) = .ok L2 ∧
        L2.length = L.length ∧
        ∀ j, L2.getD j none =
          if i < j ∧ j < L.length then some c else L.getD j none := by
  intro fuel
  induction fuel with
  | zero =>
    intro L i hfuel hconst
    refine ⟨L, ?_, rfl, ?_⟩
    · unfold fillLoop
      rw [if_neg (by omega)]
    · intro j
      rw [if_neg (by omega)]
  | succ fuel ih =>
    intro L i hfuel hconst
    by_cases hg : (i : Int) + 1 < (L.length : Int)
    · have hlt : i + 1 < L.length := by omega
      have hcast : (i : Int) + 1 = ((i + 1 : Nat) : Int) := by push_cast; ring
      have hval : L.getD (i + 1) none = e := hconst (i + 1) (by omega) hlt
      have hstep : fillLoop (fuel + 1) L e c (i : Int) (L.length : Int) =
          fillLoop fuel (L.set (i + 1) (some c)) e c ((i + 1 : Nat) : Int)
            (L.length : Int) := by
        conv_lhs => rw [fillLoop]
        rw [if_pos hg, hcast, pyGet_nat L (i + 1) none hlt]
        rw [exOk_bind]
        rw [hval, he, exOk_bind]
        rw [if_pos rfl]
        rw [pySet_nat L (i + 1) (some c) hlt, exOk_bind]
      have hconst2 : ∀ j, i + 1 < j → j < (L.set (i + 1) (some c)).length →
          (L.set (i + 1) (some c)).getD j none = e := by
        intro j hj hjl
        rw [getD_set_ne _ _ _ _ _ (by omega)]
        exact hconst j (by omega) (by simpa using hjl)
      have hfuel2 : (L.set (i + 1) (some c)).length ≤ (i + 1) + 1 + fuel := by
        simpa using (by omega : L.length ≤ (i + 1) + 1 + fuel)
      obtain ⟨L2, hrun, hlen, hpt⟩ := ih (L.set (i + 1) (some c)) (i + 1) hfuel2 hconst2
      refine ⟨L2, ?_, by simpa using hlen, ?_⟩
      · rw [hstep]
        rw [show ((L.set (i + 1) (some c)).length : Int) = (L.length : Int) from
          by simp] at hrun
        exact hrun
      · intro j
        rw [hpt j]
        simp only [List.length_set]
        by_cases h1 : i + 1 < j ∧ j < L.length
        · rw [if_pos h1, if_pos (by omega)]
        · rw [if_neg h1]
          by_cases h2 : j = i + 1
          · subst h2
            rw [getD_set_self _ _ _ _ hlt, if_pos (by omega)]
          · rw [getD_set_ne _ _ _ _ _ (by omega), if_neg (by omega)]
    · refine ⟨L, ?_, rfl, ?_⟩
      · unfold fillLoop
        rw [if_neg hg]
      · intro j
        rw [if_neg (by omega)]

/-- The write-then-fill step over a constant tail: writing at position a of
a region that holds the overwritten value from a onward rewrites everything
from a to the end. -/
theorem assignFill_spec (L : List (Option PyChord)) (c : PyChord) (a : Nat)
    (e : Option PyChord) (ha : a < L.length)
    (he : pyEqOC e e = .ok true)
    (hconst : ∀ j, a ≤ j → j < L.length → L.getD j none = e) :
    ∃ L2, assignFill L c (a : Int) (L.length : Int) = .ok L2 ∧
      L2.length = L.length ∧
      ∀ j, L2.getD j none =
        if a ≤ j ∧ j < L.length then some c else L.getD j none := by
  have hfuel : (L.set a (some c)).length ≤ a + 1 +
      ((L.length : Int) - (a : Int)).toNat := by
    simp only [List.length_set]
    omega
  have hconst1 : ∀ j, a < j → j < (L.set a (some c)).length →
      (L.set a (some c)).getD j none = e := by
    intro j hj hjl
    rw [getD_set_ne _ _ _ _ _ (by omega)]
    exact hconst j (by omega) (by simpa using hjl)
  obtain ⟨L2, hrun, hlen, hpt⟩ := fillLoop_const e c he
    (((L.length : Int) - (a : Int)).toNat) (L.set a (some c)) a hfuel hconst1
  rw [show ((L.set a (some c)).length : Int) = (L.length : Int) from by simp] at hrun
  refine ⟨L2, ?_, by simpa using hlen, ?_⟩
  · unfold assignFill
    rw [pyGet_nat L a none ha, exOk_bind, hconst a le_rfl ha,
      pySet_nat L a (some c) ha, exOk_bind]
    exact hrun
  · intro j
    rw [hpt j]
    simp only [List.length_set]
    by_cases h1 : a < j ∧ j < L.length
    · rw [if_pos h1, if_pos (by omega)]
    · rw [if_neg h1]
      by_cases h2 : j = a
      · subst h2
        rw [getD_set_self _ _ _ _ ha, if_pos (by omega)]
      · rw [getD_set_ne _ _ _ _ _ (by omega), if_neg (by omega)]

/-- Section.assign_chord at an in-range absolute unit over a constant tail:
the new chord fills from that unit to the end of the timeline, and only the
chord_progression field changes. -/
theorem assign_chord_abs_spec (s : Section) (c : PyChord) (a : Nat)
    (e : Option PyChord)
    (htot : s.total_units = (s.chord_progression.length : Int))
    (ha : a < s.chord_progression.length)
    (he : pyEqOC e e = .ok true)
    (hconst : ∀ j, a ≤ j → j < s.chord_progression.length →
      s.chord_progression.getD j none = e) :
    ∃ L2, s.assign_chord c none none none (some (a : Int)) =
        .ok { s with chord_progression := L2 } ∧
      L2.length = s.chord_progression.length ∧
      ∀ j, L2.getD j none =
        if a ≤ j ∧ j < s.chord_progression.length then some c
        else s.chord_progression.getD j none := by
  obtain ⟨L2, hfill, hlen, hpt⟩ := assignFill_spec s.chord_progression c a e ha he hconst
  have hcore : assignChordCore s.num_measures s.beats_per_measure s.units_per_beat
      s.total_units s.chord_progression c none none none (some (a : Int)) = .ok L2 := by
    simp only [assignChordCore]
    rw [htot]
    rw [if_neg (by omega)]
    rw [if_neg (by simp)]
    exact hfill
  refine ⟨L2, ?_, hlen, hpt⟩
  unfold Section.assign_chord
  rw [hcore, exOk_bind]

/-- Invariant of the first concat copy loop: position u has been reached,
positions before u hold the first section's chords, and everything from u on
holds the running fill value.  Running the remaining iterations completes
the copy and leaves the loop variable holding the last chord value read. -/
theorem concatLoop1_spec (A : Section) (N : Nat)
    (hnpf : nonePrefixForm A.chord_progression)
    (hok : progOK A.chord_progression)
    (hAN : A.chord_progression.length ≤ N) :
    ∀ (f u : Nat) (cs : Section) (cv : Option (Option PyChord)),
      u + f = A.chord_progression.length →
      cs.total_units = (N : Int) →
      cs.chord_progression.length = N →
      (∀ j, j < N → cs.chord_progression.getD j none =
        if j < u then A.chord_progression.getD j none
        else runVal A.chord_progression u) →
      ∃ cs',
        concatLoop1 A cs cv u f = .ok (cs',
          if f = 0 then cv
          else some (A.chord_progression.getD (u + f - 1) none)) ∧
        cs'.total_units = (N : Int) ∧
        cs'.chord_progression.length = N ∧
        cs'.num_measures = cs.num_measures ∧
        (∀ j, j < N → cs'.chord_progression.getD j none =
          if j < u + f then A.chord_progression.getD j none
          else runVal A.chord_progression (u + f)) := by
  intro f
  induction f with
  | zero =>
    intro u cs cv hu htot hlen hinv
    exact ⟨cs, rfl, htot, hlen, rfl, by simpa using hinv⟩
  | succ f ih =>
    intro u cs cv hu htot hlen hinv
    have hulen : u < A.chord_progression.length := by omega
    have hget : A.get_chord (u : Int) =
        .ok (A.chord_progression.getD u none) := by
      unfold Section.get_chord
      exact pyGet_nat _ u none hulen
    have htot' : cs.total_units = (cs.chord_progression.length : Int) := by
      rw [htot, hlen]
    have huN : u < N := by omega
    have he : pyEqOC (runVal A.chord_progression u) (runVal A.chord_progression u) =
        .ok true := pyEqOC_refl (runVal_ok _ u hok)
    have hconst : ∀ j, u ≤ j → j < cs.chord_progression.length →
        cs.chord_progression.getD j none = runVal A.chord_progression u := by
      intro j hj hjl
      rw [hinv j (by omega), if_neg (by omega)]
    cases hau : A.chord_progression.getD u none with
    | some c =>
      obtain ⟨L2, hassign, hlen2, hpt⟩ :=
        assign_chord_abs_spec cs c u (runVal A.chord_progression u) htot'
          (by omega) he hconst
      have hstep : concatLoop1 A cs cv u (f + 1) =
          concatLoop1 A { cs with chord_progression := L2 }
            (some (some c)) (u + 1) f := by
        conv_lhs => rw [concatLoop1]
        rw [hget, exOk_bind, hau]
        show cs.assign_chord c none none none (some (u : Int)) >>=
          (fun cs2 => concatLoop1 A cs2 (some (some c)) (u + 1) f) = _
        rw [hassign, exOk_bind]
      have hinv2 : ∀ j, j < N →
          ({ cs with chord_progression := L2 } : Section).chord_progression.getD j none =
          if j < u + 1 then A.chord_progression.getD j none
          else runVal A.chord_progression (u + 1) := by
        intro j hjN
        show L2.getD j none = _
        rw [hpt j, hlen]
        rcases Nat.lt_trichotomy j u with hj | hj | hj
        · rw [if_neg (by omega), hinv j hjN, if_pos hj, if_pos (by omega)]
        · subst hj
          rw [if_pos (by omega), if_pos (by omega), hau]
        · rw [if_pos (by omega), if_neg (by omega),
            runVal_succ _ u hulen, hau]
      obtain ⟨cs', hrun, p1, p2, p3, p4⟩ := ih (u + 1)
        { cs with chord_progression := L2 } (some (some c))
        (by omega) htot (by rw [show ({ cs with chord_progression := L2 } :
          Section).chord_progression = L2 from rfl, hlen2, hlen]) hinv2
      refine ⟨cs', ?_, p1, p2, p3, ?_⟩
      · rw [hstep, hrun]
        by_cases hf : f = 0
        · subst hf
          rw [if_pos rfl, if_neg (by omega),
            show u + (0 + 1) - 1 = u from by omega, hau]
        · rw [if_neg hf, if_neg (by omega),
            show u + 1 + f - 1 = u + (f + 1) - 1 from by omega]
      · intro j hjN
        rw [p4 j hjN, show u + 1 + f = u + (f + 1) from by omega]
    | none =>
      have hru : runVal A.chord_progression u = none :=
        runVal_none_of _ u hnpf hulen hau
      have hstep : concatLoop1 A cs cv u (f + 1) =
          concatLoop1 A cs (some none) (u + 1) f := by
        conv_lhs => rw [concatLoop1]
        rw [hget, exOk_bind, hau]
        rfl
      have hinv2 : ∀ j, j < N → cs.chord_progression.getD j none =
          if j < u + 1 then A.chord_progression.getD j none
          else runVal A.chord_progression (u + 1) := by
        intro j hjN
        rw [hinv j hjN]
        rcases Nat.lt_trichotomy j u with hj | hj | hj
        · rw [if_pos hj, if_pos (by omega)]
        · subst hj
          rw [if_neg (by omega), if_pos (by omega), hau, hru]
        · rw [if_neg (by omega), if_neg (by omega),
            runVal_succ _ u hulen, hau]
      obtain ⟨cs', hrun, p1, p2, p3, p4⟩ := ih (u + 1) cs (some none)
        (by omega) htot hlen hinv2
      refine ⟨cs', ?_, p1, p2, p3, ?_⟩
      · rw [hstep, hrun]
        by_cases hf : f = 0
        · subst hf
          rw [if_pos rfl, if_neg (by omega),
            show u + (0 + 1) - 1 = u from by omega, hau]
        · rw [if_neg hf, if_neg (by omega),
            show u + 1 + f - 1 = u + (f + 1) - 1 from by omega]
      · intro j hjN
        rw [p4 j hjN, show u + 1 + f = u + (f + 1) from by omega]

/-- In a none-prefix-form timeline the running last chord value of the whole
timeline is its final unit. -/
theorem lastSome_eq_last (L : List (Option PyChord)) (hnpf : nonePrefixForm L)
    (hpos : 0 < L.length) :
    lastSome L = L.getD (L.length - 1) none := by
  have htake : lastSome L = runVal L L.length := by
    unfold runVal
    rw [List.take_length]
  obtain ⟨n, hn⟩ : ∃ n, L.length = n + 1 := ⟨L.length - 1, by omega⟩
  have hgoal : runVal L (n + 1) = L.getD n none := by
    rw [runVal_succ L n (by omega)]
    cases hl : L.getD n none with
    | some c => rfl
    | none => exact runVal_none_of L n hnpf (by omega) hl
  rw [htake, hn, hgoal, show n + 1 - 1 = n from rfl]

/-- Invariant of the second concat copy loop: positions below aLen are a
stable prefix, copied positions hold the other section's chords with the
loop variable's chord substituted for unset units, and the tail holds the
current carry value. -/
theorem concatLoop2_spec (B : Section) (la : Option PyChord) (aLen : Nat)
    (g : Nat → Option PyChord)
    (hnpf : nonePrefixForm B.chord_progression)
    (hok : progOK B.chord_progression)
    (hla : okOpt la = true) :
    ∀ (f v : Nat) (cs : Section) (N : Nat),
      v + f = B.chord_progression.length →
      aLen + B.chord_progression.length = N →
      cs.total_units = (N : Int) →
      cs.chord_progression.length = N →
      (∀ j, j < N → cs.chord_progression.getD j none =
        if j < aLen then g j
        else if j < aLen + v then
          (match B.chord_progression.getD (j - aLen) none with
           | some c => some c
           | none => la)
        else
          (match runVal B.chord_progression v with
           | some c => some c
           | none => la)) →
      ∃ cs',
        concatLoop2 B (aLen : Int) (some la) cs v f = .ok cs' ∧
        cs'.total_units = (N : Int) ∧
        cs'.chord_progression.length = N ∧
        cs'.num_measures = cs.num_measures ∧
        (∀ j, j < N → cs'.chord_progression.getD j none =
          if j < aLen then g j
          else if j < aLen + (v + f) then
            (match B.chord_progression.getD (j - aLen) none with
             | some c => some c
             | none => la)
          else
            (match runVal B.chord_progression (v + f) with
             | some c => some c
             | none => la)) := by
  intro f
  induction f with
  | zero =>
    intro v cs N hv hN htot hlen hinv
    exact ⟨cs, rfl, htot, hlen, rfl, by simpa using hinv⟩
  | succ f ih =>
    intro v cs N hv hN htot hlen hinv
    have hvlen : v < B.chord_progression.length := by omega
    have hget : B.get_chord (v : Int) =
        .ok (B.chord_progression.getD v none) := by
      unfold Section.get_chord
      exact pyGet_nat _ v none hvlen
    have htot' : cs.total_units = (cs.chord_progression.length : Int) := by
      rw [htot, hlen]
    have ha0 : aLen + v < N := by omega
    have hcast : (aLen : Int) + (v : Nat) = ((aLen + v : Nat) : Int) := by
      push_cast
      ring
    have hcarry_ok : okOpt (match runVal B.chord_progression v with
        | some c => some c
        | none => la) = true := by
      cases hr : runVal B.chord_progression v with
      | none => exact hla
      | some c =>
        have := runVal_ok B.chord_progression v hok
        rw [hr] at this
        exact this
    have hconst : ∀ j, aLen + v ≤ j → j < cs.chord_progression.length →
        cs.chord_progression.getD j none =
          (match runVal B.chord_progression v with
           | some c => some c
           | none => la) := by
      intro j hj hjl
      rw [hinv j (by omega), if_neg (by omega), if_neg (by omega)]
    cases hbv : B.chord_progression.getD v none with
    | some c =>
      obtain ⟨L2, hassign, hlen2, hpt⟩ :=
        assign_chord_abs_spec cs c (aLen + v) _ htot' (by omega)
          (pyEqOC_refl hcarry_ok) hconst
      have hstep : concatLoop2 B (aLen : Int) (some la) cs v (f + 1) =
          concatLoop2 B (aLen : Int) (some la)
            { cs with chord_progression := L2 } (v + 1) f := by
        conv_lhs => rw [concatLoop2]
        rw [hget, exOk_bind, hbv]
        show cs.assign_chord c none none none (some ((aLen : Int) + (v : Nat))) >>=
          (fun cs2 => concatLoop2 B (aLen : Int) (some la) cs2 (v + 1) f) = _
        rw [hcast, hassign, exOk_bind]
      have hinv2 : ∀ j, j < N →
          ({ cs with chord_progression := L2 } : Section).chord_progression.getD j none =
          if j < aLen then g j
          else if j < aLen + (v + 1) then
            (match B.chord_progression.getD (j - aLen) none with
             | some c => some c
             | none => la)
          else
            (match runVal B.chord_progression (v + 1) with
             | some c => some c
             | none => la) := by
        intro j hjN
        show L2.getD j none = _
        rw [hpt j, hlen]
        rcases Nat.lt_trichotomy j (aLen + v) with hj | hj | hj
        · rw [if_neg (by omega), hinv j hjN]
          by_cases hja : j < aLen
          · rw [if_pos hja, if_pos hja]
          · rw [if_neg hja, if_neg hja, if_pos (by omega), if_pos (by omega)]
        · subst hj
          rw [if_pos (by omega), if_neg (by omega), if_pos (by omega),
            show aLen + v - aLen = v from by omega, hbv]
        · rw [if_pos (by omega), if_neg (by omega), if_neg (by omega),
            runVal_succ _ v hvlen, hbv]
      obtain ⟨cs', hrun, p1, p2, p3, p4⟩ := ih (v + 1)
        { cs with chord_progression := L2 } N (by omega) hN htot
        (by rw [show ({ cs with chord_progression := L2 } :
          Section).chord_progression = L2 from rfl, hlen2, hlen]) hinv2
      refine ⟨cs', ?_, p1, p2, p3, ?_⟩
      · rw [hstep, hrun]
      · intro j hjN
        rw [p4 j hjN, show v + 1 + f = v + (f + 1) from by omega]
    | none =>
      have hrv : runVal B.chord_progression v = none :=
        runVal_none_of _ v hnpf hvlen hbv
      cases hla2 : la with
      | some c0 =>
        subst hla2
        have hconst0 : ∀ j, aLen + v ≤ j → j < cs.chord_progression.length →
            cs.chord_progression.getD j none = some c0 := by
          intro j hj hjl
          rw [hconst j hj hjl, hrv]
        obtain ⟨L2, hassign, hlen2, hpt⟩ :=
          assign_chord_abs_spec cs c0 (aLen + v) (some c0) htot' (by omega)
            (pyEqOC_refl hla) hconst0
        have hstep : concatLoop2 B (aLen : Int) (some (some c0)) cs v (f + 1) =
            concatLoop2 B (aLen : Int) (some (some c0))
              { cs with chord_progression := L2 } (v + 1) f := by
          conv_lhs => rw [concatLoop2]
          rw [hget, exOk_bind, hbv]
          show cs.assign_chord c0 none none none (some ((aLen : Int) + (v : Nat))) >>=
            (fun cs2 => concatLoop2 B (aLen : Int) (some (some c0)) cs2 (v + 1) f) = _
          rw [hcast, hassign, exOk_bind]
        have hinv2 : ∀ j, j < N →
            ({ cs with chord_progression := L2 } : Section).chord_progression.getD j none =
            if j < aLen then g j
            else if j < aLen + (v + 1) then
              (match B.chord_progression.getD (j - aLen) none with
               | some c => some c
               | none => some c0)
            else
              (match runVal B.chord_progression (v + 1) with
               | some c => some c
               | none => some c0) := by
          intro j hjN
          show L2.getD j none = _
          rw [hpt j, hlen]
          rcases Nat.lt_trichotomy j (aLen + v) with hj | hj | hj
          · rw [if_neg (by omega), hinv j hjN]
            by_cases hja : j < aLen
            · rw [if_pos hja, if_pos hja]
            · rw [if_neg hja, if_neg hja, if_pos (by omega), if_pos (by omega)]
          · subst hj
            rw [if_pos (by omega), if_neg (by omega), if_pos (by omega),
              show aLen + v - aLen = v from by omega, hbv]
          · rw [if_pos (by omega), if_neg (by omega), if_neg (by omega),
              runVal_succ _ v hvlen, hbv, hrv]
        obtain ⟨cs', hrun, p1, p2, p3, p4⟩ := ih (v + 1)
          { cs with chord_progression := L2 } N (by omega) hN htot
          (by rw [show ({ cs with chord_progression := L2 } :
            Section).chord_progression = L2 from rfl, hlen2, hlen]) hinv2
        refine ⟨cs', ?_, p1, p2, p3, ?_⟩
        · rw [hstep, hrun]
        · intro j hjN
          rw [p4 j hjN, show v + 1 + f = v + (f + 1) from by omega]
      | none =>
        subst hla2
        have hstep : concatLoop2 B (aLen : Int) (some none) cs v (f + 1) =
            concatLoop2 B (aLen : Int) (some none) cs (v + 1) f := by
          conv_lhs => rw [concatLoop2]
          rw [hget, exOk_bind, hbv]
          rfl
        have hinv2 : ∀ j, j < N → cs.chord_progression.getD j none =
            if j < aLen then g j
            else if j < aLen + (v + 1) then
              (match B.chord_progression.getD (j - aLen) none with
               | some c => some c
               | none => none)
            else
              (match runVal B.chord_progression (v + 1) with
               | some c => some c
               | none => none) := by
          intro j hjN
          rw [hinv j hjN]
          rcases Nat.lt_trichotomy j (aLen + v) with hj | hj | hj
          · by_cases hja : j < aLen
            · rw [if_pos hja, if_pos hja]
            · rw [if_neg hja, if_neg hja, if_pos (by omega), if_pos (by omega)]
          · subst hj
            rw [if_neg (by omega), if_neg (by omega), if_neg (by omega),
              if_pos (by omega), hrv,
              show aLen + v - aLen = v from by omega, hbv]
          · rw [if_neg (by omega), if_neg (by omega), if_neg (by omega),
              if_neg (by omega), runVal_succ _ v hvlen, hbv]
        obtain ⟨cs', hrun, p1, p2, p3, p4⟩ := ih (v + 1) cs N (by omega) hN htot
          hlen hinv2
        refine ⟨cs', ?_, p1, p2, p3, ?_⟩
        · rw [hstep, hrun]
        · intro j hjN
          rw [p4 j hjN, show v + 1 + f = v + (f + 1) from by omega]

/-- Reading any position of an all-unset timeline yields none. -/
theorem getD_replicate_none (n j : Nat) :
    (List.replicate n (none : Option PyChord)).getD j none = none := by
  rcases Nat.lt_or_ge j n with h | h
  · rw [List.getD_eq_getElem _ _ (by simpa using h), List.getElem_replicate]
  · rw [List.getD_eq_default _ _ (by simpa using h)]

/-- A fully set timeline is in none-prefix form. -/
theorem npf_replicate_some (n : Nat) (c : PyChord) :
    nonePrefixForm (List.replicate n (some c)) := by
  intro i j hij hj h
  rw [List.getD_eq_getElem _ _ hj, List.getElem_replicate] at h
  simp at h

/-- A fully unset timeline is in none-prefix form. -/
theorem npf_replicate_none (n : Nat) :
    nonePrefixForm (List.replicate n (none : Option PyChord)) := by
  intro i j hij hj _
  rw [List.getD_eq_getElem _ _ (lt_of_le_of_lt hij hj), List.getElem_replicate]

/-- C6: concat of two sections with coherent timelines (none-prefix form,
well-formed chords, lengths matching total_units and the measure formula).
A mismatched time signature, units-per-beat or key raises the matching
ValueError; otherwise concat returns a new section whose measure count is
the sum, whose timeline is the concatenation length-wise, whose first part
copies the first input unit-by-unit, and whose second part copies each SET
unit of the second input while EVERY unset unit of the second input — not
just the first one after the boundary — receives the last unit value of the
first input. -/
theorem C6_theorem (A B : Section)
    (hAts : A.time_signature = "4/4")
    (hkey : A.key ∈ KEYS)
    (hAtot : A.total_units = (A.chord_progression.length : Int))
    (hBtot : B.total_units = (B.chord_progression.length : Int))
    (hAinv : A.total_units = A.num_measures * 4 * A.units_per_beat)
    (hBinv : B.total_units = B.num_measures * 4 * B.units_per_beat)
    (hAnpf : nonePrefixForm A.chord_progression)
    (hAok : progOK A.chord_progression)
    (hBnpf : nonePrefixForm B.chord_progression)
    (hBok : progOK B.chord_progression)
    (hApos : 0 < A.chord_progression.length) :
    (A.time_signature ≠ B.time_signature →
      A.concat B = .error (.valueError "time signatures must agree")) ∧
    (A.units_per_beat ≠ B.units_per_beat → A.time_signature = B.time_signature →
      A.concat B = .error (.valueError "units per beat must agree")) ∧
    (A.key ≠ B.key → A.time_signature = B.time_signature →
      A.units_per_beat = B.units_per_beat →
      A.concat B = .error (.valueError "keys must agree")) ∧
    (A.time_signature = B.time_signature → A.units_per_beat = B.units_per_beat →
      A.key = B.key →
      ∃ C, A.concat B = .ok C ∧
        C.num_measures = A.num_measures + B.num_measures ∧
        C.chord_progression.length =
          A.chord_progression.length + B.chord_progression.length ∧
        (∀ u, u < A.chord_progression.length →
          C.chord_progression.getD u none = A.chord_progression.getD u none) ∧
        (∀ u, u < B.chord_progression.length →
          C.chord_progression.getD (A.chord_progression.length + u) none =
            match B.chord_progression.getD u none with
            | some c => some c
            | none => A.chord_progression.getD
                (A.chord_progression.length - 1) none)) := by
  refine ⟨?_, ?_, ?_, ?_⟩
  · intro h
    simp only [Section.concat]
    rw [if_pos h]
  · intro h hts
    simp only [Section.concat]
    rw [if_neg (not_ne_iff.mpr hts), if_pos h]
  · intro h hts hupb
    simp only [Section.concat]
    rw [if_neg (not_ne_iff.mpr hts), if_neg (not_ne_iff.mpr hupb), if_pos h]
  · intro hts hupb hkeyB
    have h4 : tsNumerator A.time_signature = 4 := by rw [hAts]; rfl
    have htotsum : (A.num_measures + B.num_measures) * tsNumerator A.time_signature *
        A.units_per_beat =
        ((A.chord_progression.length + B.chord_progression.length : Nat) : Int) := by
      rw [h4]
      have hsplit : (A.num_measures + B.num_measures) * 4 * A.units_per_beat =
          A.num_measures * 4 * A.units_per_beat +
            B.num_measures * 4 * B.units_per_beat := by
        rw [← hupb]
        ring
      rw [hsplit, ← hAinv, ← hBinv, hAtot, hBtot]
      push_cast
      ring
    have hinit : ∀ (nm : Option String) (vr : Int) (fs : Bool),
        Section.init nm (some vr) A.time_signature A.key
          (A.num_measures + B.num_measures) A.units_per_beat fs =
        .ok ⟨nm, some vr, A.time_signature, A.key,
          A.num_measures + B.num_measures, A.units_per_beat, fs,
          tsNumerator A.time_signature,
          (A.num_measures + B.num_measures) * tsNumerator A.time_signature *
            A.units_per_beat,
          List.replicate ((A.num_measures + B.num_measures) *
            tsNumerator A.time_signature * A.units_per_beat).toNat none⟩ := by
      intro nm vr fs
      unfold Section.init
      rw [if_neg (not_not.mpr (by rw [hAts]; decide)), if_neg (not_not.mpr hkey)]
    simp only [Section.concat]
    rw [if_neg (not_ne_iff.mpr hts), if_neg (not_ne_iff.mpr hupb),
      if_neg (not_ne_iff.mpr hkeyB), hinit]
    simp only [exOk_bind]
    generalize (if A.name = B.name then A.name
      else some (fmtName A.name ++ "_" ++ fmtName B.name)) = nm
    generalize (if A.name = B.name then
        (([A.variation, B.variation].filterMap id ++ [0]).foldl max 0) + 1
      else match A.variation with | none => 1 | some v => v + 1) = vr
    obtain ⟨cs1, hrun1, q1, q2, q3, q4⟩ :=
      concatLoop1_spec A (A.chord_progression.length + B.chord_progression.length)
        hAnpf hAok (by omega) A.total_units.toNat 0
        ⟨nm, some vr, A.time_signature, A.key,
          A.num_measures + B.num_measures, A.units_per_beat,
          A.final_section || B.final_section, tsNumerator A.time_signature,
          (A.num_measures + B.num_measures) * tsNumerator A.time_signature *
            A.units_per_beat,
          List.replicate ((A.num_measures + B.num_measures) *
            tsNumerator A.time_signature * A.units_per_beat).toNat none⟩
        none (by omega) htotsum
        (by
          show (List.replicate ((A.num_measures + B.num_measures) *
            tsNumerator A.time_signature * A.units_per_beat).toNat
            (none : Option PyChord)).length = _
          rw [List.length_replicate, htotsum]
          omega)
        (by
          intro j hj
          rw [if_neg (Nat.not_lt_zero j), runVal_zero]
          exact getD_replicate_none _ j)
    rw [if_neg (show ¬ A.total_units.toNat = 0 from by omega),
      show 0 + A.total_units.toNat - 1 = A.chord_progression.length - 1 from by omega]
      at hrun1
    have hrunla : runVal A.chord_progression A.chord_progression.length =
        A.chord_progression.getD (A.chord_progression.length - 1) none := by
      unfold runVal
      rw [List.take_length]
      exact lastSome_eq_last _ hAnpf hApos
    have q4' : ∀ j, j < A.chord_progression.length + B.chord_progression.length →
        cs1.chord_progression.getD j none =
          if j < A.chord_progression.length then A.chord_progression.getD j none
          else A.chord_progression.getD (A.chord_progression.length - 1) none := by
      intro j hj
      rw [q4 j hj,
        show 0 + A.total_units.toNat = A.chord_progression.length from by omega,
        hrunla]
    have hlaok : okOpt (A.chord_progression.getD
        (A.chord_progression.length - 1) none) = true := by
      have hmem : A.chord_progression.getD (A.chord_progression.length - 1) none ∈
          A.chord_progression := by
        rw [List.getD_eq_getElem _ _ (by omega)]
        exact List.getElem_mem _
      exact hAok _ hmem
    obtain ⟨C, hrun2, r1, r2, r3, r4⟩ :=
      concatLoop2_spec B
        (A.chord_progression.getD (A.chord_progression.length - 1) none)
        A.chord_progression.length (fun j => A.chord_progression.getD j none)
        hBnpf hBok hlaok B.total_units.toNat 0 cs1
        (A.chord_progression.length + B.chord_progression.length)
        (by omega) rfl q1 q2
        (by
          intro j hj
          rw [q4' j hj]
          by_cases hja : j < A.chord_progression.length
          · rw [if_pos hja, if_pos hja]
          · rw [if_neg hja, if_neg hja,
              if_neg (show ¬ j < A.chord_progression.length + 0 from by omega),
              runVal_zero])
    refine ⟨C, ?_, ?_, ?_, ?_, ?_⟩
    · rw [hrun1]
      show concatLoop2 B A.total_units
        (some (A.chord_progression.getD (A.chord_progression.length - 1) none))
        cs1 0 B.total_units.toNat = .ok C
      rw [hAtot]
      exact hrun2
    · rw [r3, q3]
    · exact r2
    · intro u hu
      rw [r4 u (by omega), if_pos hu]
    · intro u hu
      rw [r4 (A.chord_progression.length + u) (by omega), if_neg (by omega),
        if_pos (by omega),
        show A.chord_progression.length + u - A.chord_progression.length = u
          from by omega]

/-- C6 counterexample to the claim that only the FIRST unit of the second
input after the boundary inherits the carried chord: concatenating a fully
set one-measure section (all C) with a fully unset one, the claim predicts
the result is unset at boundary offset 1, but the code carries the C major
triad into that unit as well. -/
theorem C6_counterexample :
    C6B.chord_progression.getD 1 none = none ∧
    (C6A.concat C6B).map
      (fun C => C.chord_progression.getD (C6A.chord_progression.length + 1) none) =
      .ok (some chordC) := by decide

/-- C6 witness: the success branch of C6_theorem evaluated on C6A and C6B. -/
theorem C6_witness :
    ∃ C, C6A.concat C6B = .ok C ∧
      C.num_measures = C6A.num_measures + C6B.num_measures ∧
      C.chord_progression.length =
        C6A.chord_progression.length + C6B.chord_progression.length ∧
      (∀ u, u < C6A.chord_progression.length →
        C.chord_progression.getD u none = C6A.chord_progression.getD u none) ∧
      (∀ u, u < C6B.chord_progression.length →
        C.chord_progression.getD (C6A.chord_progression.length + u) none =
          match C6B.chord_progression.getD u none with
          | some c => some c
          | none => C6A.chord_progression.getD
              (C6A.chord_progression.length - 1) none) :=
  (C6_theorem C6A C6B rfl (by decide) (by decide) (by decide) (by decide)
    (by decide) (npf_replicate_some 4 chordC) (by unfold progOK; decide)
    (npf_replicate_none 4) (by unfold progOK; decide) (by decide)).2.2.2
    rfl rfl rfl

end ChordStriker
